import Mathlib

/-!
Verification of the BPE tokenizer in
`src/llm_tokenizer/.ipynb_checkpoints/BPETokenizer-checkpoint.py`.

The Python class `Tokenizer` is embedded shallowly:

* `TokenPair` mirrors the `TokenPair` dataclass (fields `first_token`,
  `second_token`, `frequency`).
* Python dicts (`tcounts`, `decoding_map`, `encoding_map`) are modelled as
  association lists in insertion order: an insert of a present key updates the
  entry in place, an insert of a fresh key appends at the end, and lookup
  returns the first matching entry.  This mirrors CPython dict semantics.
* `Tokenizer.__init__` becomes `initState`; mutable instance state becomes the
  explicit record `TState` threaded through the functions.
* The unbounded `while` loops of `train`, `encode` and `decode` become
  fuel-indexed loops returning `Except`/`Option`; exhausted fuel is the
  explicit `fuelOut` / `none` result, and the `ValueError` raised by Python's
  `max()` on an empty collection is the explicit `valueError` result.
* Python's builtin `max` over `tcounts.values()` compares `TokenPair`s with
  only `__lt__` defined, so it keeps the earliest element among equal maxima;
  `pymax` reproduces exactly that fold.
* `encode`'s membership test `if encoded_token:` is Python truthiness: a mapped
  value `0` behaves like an absent key.  `encodePass` reproduces this.
-/

namespace BPE

/-- Mirrors the `TokenPair` dataclass (source lines 4-17). -/
structure TokenPair where
  first_token : Nat
  second_token : Nat
  frequency : Nat
  deriving DecidableEq

/-- Mirrors `TokenPair._key` (source lines 10-11). -/
def TokenPair.key (tp : TokenPair) : Nat × Nat := (tp.first_token, tp.second_token)

/-- Lookup in the `decoding_map` dict (first matching entry). -/
def lookupD : List (Nat × TokenPair) → Nat → Option TokenPair
  | [], _ => none
  | (k, v) :: rest, t => if k = t then some v else lookupD rest t

/-- Insert into the `decoding_map` dict: update in place or append. -/
def insertD : List (Nat × TokenPair) → Nat → TokenPair → List (Nat × TokenPair)
  | [], k, v => [(k, v)]
  | (k', v') :: rest, k, v =>
    if k' = k then (k', v) :: rest else (k', v') :: insertD rest k v

/-- Lookup in the `encoding_map` dict (first matching entry). -/
def lookupE : List ((Nat × Nat) × Nat) → Nat × Nat → Option Nat
  | [], _ => none
  | (k, v) :: rest, p => if k = p then some v else lookupE rest p

/-- Insert into the `encoding_map` dict: update in place or append. -/
def insertE : List ((Nat × Nat) × Nat) → Nat × Nat → Nat → List ((Nat × Nat) × Nat)
  | [], k, v => [(k, v)]
  | (k', v') :: rest, k, v =>
    if k' = k then (k', v) :: rest else (k', v') :: insertE rest k v

/-- The adjacent (stride-1, overlapping) pairs of a token stream, exactly the
pairs visited by `Tokenizer.count`'s loop over `tokens[:-1]` (lines 34-35). -/
def adjPairs (ts : List Nat) : List (Nat × Nat) := ts.zip ts.tail

/-- One iteration of `Tokenizer.count`'s loop body (lines 35-39): bump the
frequency of the pair if present, else append a fresh entry of frequency 1. -/
def bump : List TokenPair → Nat → Nat → List TokenPair
  | [], a, b => [⟨a, b, 1⟩]
  | tp :: rest, a, b =>
    if tp.first_token = a ∧ tp.second_token = b then
      ⟨tp.first_token, tp.second_token, tp.frequency + 1⟩ :: rest
    else
      tp :: bump rest a b

/-- The fold of `Tokenizer.count` over the adjacent pairs. -/
def countGo : List TokenPair → List (Nat × Nat) → List TokenPair
  | acc, [] => acc
  | acc, p :: ps => countGo (bump acc p.1 p.2) ps

/-- Mirrors `Tokenizer.count` (lines 32-39): rebuild `tcounts` from scratch. -/
def count (ts : List Nat) : List TokenPair := countGo [] (adjPairs ts)

/-- Python's builtin `max` over an iterable of `TokenPair`s, which only have
`__lt__`: the running maximum is replaced only on a strict increase, so the
earliest element among equal maxima wins; `max()` of nothing raises, modelled
as `none`. -/
def pymax : List TokenPair → Option TokenPair
  | [] => none
  | x :: xs => some (xs.foldl (fun m y => if m.frequency < y.frequency then y else m) x)

/-- Python's builtin `max` over a list of ints (`none` models the
`ValueError` on an empty list). -/
def listMax : List Nat → Option Nat
  | [] => none
  | x :: xs => some (xs.foldl Nat.max x)

/-- The mutable instance state of the `Tokenizer` class (lines 22-30).
`path_pre` models the `path_prefix` attribute. -/
structure TState where
  name : String
  path_pre : Option String
  encoding_vocab_size : Nat
  original_tokens : List Nat
  encoded_tokens : List Nat
  mint_token : Nat
  tcounts : List TokenPair
  decoding_map : List (Nat × TokenPair)
  encoding_map : List ((Nat × Nat) × Nat)
  deriving DecidableEq

/-- Runtime failures of the embedded loops: `valueError` models Python's
`ValueError` from `max()` on an empty collection; `fuelOut` marks exhausted
fuel of the fuel-indexed loops. -/
inductive TErr where
  | valueError
  | fuelOut
  deriving DecidableEq

/-- Mirrors `Tokenizer.__init__` (lines 22-30) on the raw-token path. -/
def initState (tokens : List Nat) (encoding_vocab_size : Nat)
    (name : String) (path_pre : Option String) : TState :=
  { name := name
    path_pre := path_pre
    encoding_vocab_size := encoding_vocab_size
    original_tokens := tokens
    encoded_tokens := tokens
    mint_token := 256
    tcounts := count tokens
    decoding_map := []
    encoding_map := [] }

/-- Replace the training-irrelevant metadata fields (`name`, `path_prefix`)
of a state; used to state that training depends only on the tokens and the
target vocabulary size. -/
def rn (n : String) (p : Option String) (st : TState) : TState :=
  { st with name := n, path_pre := p }

/-- Mirrors `Tokenizer.get_most_common` (lines 41-42). -/
def get_most_common (st : TState) : Option TokenPair := pymax st.tcounts

/-- The `while idx < len(...) - 1` rewrite loop of `Tokenizer.swap_top`
(lines 51-60): a single greedy left-to-right pass replacing non-overlapping
occurrences of `(a, b)` with `mint`.  The final one-element case is the
trailing `if idx < len: append` of line 60. -/
def swapPass (a b mint : Nat) : List Nat → List Nat
  | A :: B :: rest =>
    if A = a ∧ B = b then mint :: swapPass a b mint rest
    else A :: swapPass a b mint (B :: rest)
  | l => l

/-- The state after the merge-performing part of `Tokenizer.swap_top`
(lines 49-67): rewrite the stream, record the merge in both maps, advance
`mint_token`, and recompute `tcounts`. -/
def mergedState (st : TState) (top_tp : TokenPair) : TState :=
  { st with
    encoded_tokens := swapPass top_tp.first_token top_tp.second_token
      st.mint_token st.encoded_tokens
    decoding_map := insertD st.decoding_map st.mint_token top_tp
    encoding_map := insertE st.encoding_map
      (top_tp.first_token, top_tp.second_token) st.mint_token
    mint_token := st.mint_token + 1
    tcounts := count (swapPass top_tp.first_token top_tp.second_token
      st.mint_token st.encoded_tokens) }

/-- Mirrors `Tokenizer.swap_top` (lines 44-69).  Returns the new state and the
"finished encoding" flag; the flag is `max(encoded_tokens) + 1 ==
encoding_vocab_size` (line 69), or `true` without any state change when the
most common pair has frequency 1 (line 48). -/
def swap_top (st : TState) : Except TErr (TState × Bool) :=
  match get_most_common st with
  | none => .error .valueError
  | some top_tp =>
    if top_tp.frequency = 1 then .ok (st, true)
    else
      let st' := mergedState st top_tp
      match listMax st'.encoded_tokens with
      | none => .error .valueError
      | some mx => .ok (st', decide (mx + 1 = st.encoding_vocab_size))

/-- Mirrors `Tokenizer.train` (lines 71-78): call `swap_top` until it reports
finished.  The fuel bounds the number of iterations of the unbounded Python
`while` loop. -/
def trainLoop : Nat → TState → Except TErr TState
  | 0, _ => .error .fuelOut
  | fuel + 1, st =>
    match swap_top st with
    | .error e => .error e
    | .ok (st', true) => .ok st'
    | .ok (st', false) => trainLoop fuel st'

/-- One full pass of `Tokenizer.encode`'s inner `while idx < len(...) - 1`
loop (lines 136-148).  Returns the rewritten list and the `encoded` flag
(`true` = no merge happened this pass).  Note the Python truthiness test
`if encoded_token:` on line 141: a mapped value `0` is treated like an absent
key. -/
def encodePass (e : List ((Nat × Nat) × Nat)) : List Nat → List Nat × Bool
  | x :: y :: rest =>
    match lookupE e (x, y) with
    | some t =>
      if t = 0 then
        let r := encodePass e (y :: rest)
        (x :: r.1, r.2)
      else
        (t :: (encodePass e rest).1, false)
    | none =>
      let r := encodePass e (y :: rest)
      (x :: r.1, r.2)
  | l => (l, true)

/-- Mirrors `Tokenizer.encode` (lines 130-152) on the raw-token path: repeat
full passes until one makes no merge. -/
def encodeLoop (e : List ((Nat × Nat) × Nat)) : Nat → List Nat → Option (List Nat)
  | 0, _ => none
  | fuel + 1, ts =>
    let r := encodePass e ts
    if r.2 then some r.1 else encodeLoop e fuel r.1

/-- One full pass of `Tokenizer.decode`'s `for token in encoded_tokens` loop
(lines 115-124): expand every symbol present in `decoding_map` into its two
constituents.  Returns the new list and the `decoded` flag (`true` = zero
expansions this pass). -/
def decodePass (d : List (Nat × TokenPair)) : List Nat → List Nat × Bool
  | [] => ([], true)
  | t :: rest =>
    let r := decodePass d rest
    match lookupD d t with
    | some tp => (tp.first_token :: tp.second_token :: r.1, false)
    | none => (t :: r.1, r.2)

/-- Mirrors `Tokenizer.decode` (lines 110-128) on the raw-token path: repeat
full passes until one performs zero expansions. -/
def decodeLoop (d : List (Nat × TokenPair)) : Nat → List Nat → Option (List Nat)
  | 0, _ => none
  | fuel + 1, ts =>
    let r := decodePass d ts
    if r.2 then some r.1 else decodeLoop d fuel r.1

/-- Full recursive expansion of one symbol through `decoding_map`, with
explicit recursion fuel. -/
def expandSym (d : List (Nat × TokenPair)) : Nat → Nat → List Nat
  | 0, t => [t]
  | fuel + 1, t =>
    match lookupD d t with
    | some tp => expandSym d fuel tp.first_token ++ expandSym d fuel tp.second_token
    | none => [t]

/-- Full expansion of a symbol; fuel `t` suffices on grounded maps because
every `decoding_map` entry maps to strictly smaller symbols. -/
def expandTok (d : List (Nat × TokenPair)) (t : Nat) : List Nat := expandSym d t t

/-- Full expansion of a symbol sequence. -/
def expandAll (d : List (Nat × TokenPair)) : List Nat → List Nat
  | [] => []
  | t :: rest => expandTok d t ++ expandAll d rest

/-- One-step expansion of a freshly minted symbol back into its pair. -/
def expandMint (mint a b : Nat) : List Nat → List Nat
  | [] => []
  | x :: rest => (if x = mint then [a, b] else [x]) ++ expandMint mint a b rest

/-- Number of occurrences of a pair in a pair list. -/
def countOcc : List (Nat × Nat) → (Nat × Nat) → Nat
  | [], _ => 0
  | q :: rest, p => (if q = p then 1 else 0) + countOcc rest p

/-- Index of the first occurrence of a pair in a pair list (length if absent). -/
def firstIdx : List (Nat × Nat) → (Nat × Nat) → Nat
  | [], _ => 0
  | q :: rest, p => if q = p then 0 else firstIdx rest p + 1

/-- The distinct pairs of a pair list in order of first appearance: the key
insertion order of the `tcounts` dict built by `Tokenizer.count`. -/
def seenKeys (l : List (Nat × Nat)) : List (Nat × Nat) :=
  l.foldl (fun acc p => if p ∈ acc then acc else acc ++ [p]) []

/-- The keys of the `decoding_map` dict, in insertion order. -/
def keysD (d : List (Nat × TokenPair)) : List Nat := d.map Prod.fst

/-- Termination measure for the decode fixed-point loop: on grounded maps every
expanding pass strictly decreases it. -/
def weight3 : List Nat → Nat
  | [] => 0
  | t :: rest => 3 ^ t + weight3 rest

/-- Every `decoding_map` entry maps a symbol to a pair of strictly smaller
symbols. -/
def Grounded (d : List (Nat × TokenPair)) : Prop :=
  ∀ t tp, lookupD d t = some tp → tp.first_token < t ∧ tp.second_token < t

/-- Every `decoding_map` key is a minted id (at least 256). -/
def KeysGE (d : List (Nat × TokenPair)) : Prop :=
  ∀ t tp, lookupD d t = some tp → 256 ≤ t

/-- Every `decoding_map` key is below the bound `m`. -/
def KeysLT (d : List (Nat × TokenPair)) (m : Nat) : Prop :=
  ∀ t tp, lookupD d t = some tp → t < m

/-- Every `encoding_map` entry has a matching `decoding_map` entry. -/
def EDConsistent (e : List ((Nat × Nat) × Nat)) (d : List (Nat × TokenPair)) : Prop :=
  ∀ a b t, lookupE e (a, b) = some t →
    ∃ tp, lookupD d t = some tp ∧ tp.first_token = a ∧ tp.second_token = b

/-- The training invariant maintained by `swap_top` from `initState` on. -/
structure Inv (st : TState) : Prop where
  toks_lt : ∀ x ∈ st.encoded_tokens, x < st.mint_token
  mint_ge : 256 ≤ st.mint_token
  dkeys_ge : KeysGE st.decoding_map
  dkeys_lt : KeysLT st.decoding_map st.mint_token
  grounded : Grounded st.decoding_map
  consistent : EDConsistent st.encoding_map st.decoding_map
  tc : st.tcounts = count st.encoded_tokens

/-! ### Facts about `pymax` (Python `max` with only `__lt__`) -/

theorem foldl_pymax_freq_le (xs : List TokenPair) (x : TokenPair) :
    x.frequency ≤
      (xs.foldl (fun m y => if m.frequency < y.frequency then y else m) x).frequency := by
  induction xs generalizing x with
  | nil => exact le_refl _
  | cons y ys ih =>
    simp only [List.foldl_cons]
    by_cases h : x.frequency < y.frequency
    · simp only [if_pos h]
      exact le_trans (le_of_lt h) (ih y)
    · simp only [if_neg h]
      exact ih x

theorem foldl_pymax_decomp (xs : List TokenPair) (x : TokenPair) :
    ∃ l₁ l₂,
      x :: xs = l₁ ++
        (xs.foldl (fun m y => if m.frequency < y.frequency then y else m) x) :: l₂ ∧
      (∀ y ∈ l₁, y.frequency <
        (xs.foldl (fun m y => if m.frequency < y.frequency then y else m) x).frequency) ∧
      (∀ y ∈ l₂, y.frequency ≤
        (xs.foldl (fun m y => if m.frequency < y.frequency then y else m) x).frequency) := by
  induction xs generalizing x with
  | nil =>
    refine ⟨[], [], by simp, by simp, by simp⟩
  | cons y ys ih =>
    simp only [List.foldl_cons]
    by_cases h : x.frequency < y.frequency
    · simp only [if_pos h]
      obtain ⟨l₁, l₂, heq, hpre, hpost⟩ := ih y
      refine ⟨x :: l₁, l₂, by rw [List.cons_append, ← heq], ?_, hpost⟩
      intro z hz
      rcases List.mem_cons.mp hz with rfl | hz
      · exact lt_of_lt_of_le h (foldl_pymax_freq_le ys y)
      · exact hpre z hz
    · simp only [if_neg h]
      obtain ⟨l₁, l₂, heq, hpre, hpost⟩ := ih x
      match l₁, heq with
      | [], heq =>
        simp only [List.nil_append, List.cons.injEq] at heq
        obtain ⟨hx, hys⟩ := heq
        refine ⟨[], y :: l₂, ?_, by simp, ?_⟩
        · simp [← hx, ← hys]
        · intro z hz
          rcases List.mem_cons.mp hz with rfl | hz
          · rw [← hx]; omega
          · exact hpost z hz
      | z :: l₁', heq =>
        simp only [List.cons_append, List.cons.injEq] at heq
        obtain ⟨hx, hys⟩ := heq
        refine ⟨x :: y :: l₁', l₂, ?_, ?_, hpost⟩
        · simp only [List.cons_append]
          rw [← hys]
        · intro w hw
          have hxlt : x.frequency <
              (ys.foldl (fun m y => if m.frequency < y.frequency then y else m) x).frequency := by
            have := hpre z (List.mem_cons_self z l₁')
            rw [← hx] at this
            exact this
          rcases List.mem_cons.mp hw with rfl | hw
          · exact hxlt
          · rcases List.mem_cons.mp hw with rfl | hw
            · omega
            · exact hpre w (List.mem_cons_of_mem z hw)

theorem pymax_spec (l : List TokenPair) (m : TokenPair) (h : pymax l = some m) :
    ∃ l₁ l₂, l = l₁ ++ m :: l₂ ∧
      (∀ y ∈ l₁, y.frequency < m.frequency) ∧
      (∀ y ∈ l₂, y.frequency ≤ m.frequency) := by
  match l, h with
  | x :: xs, h =>
    simp only [pymax, Option.some.injEq] at h
    subst h
    exact foldl_pymax_decomp xs x

theorem pymax_mem (l : List TokenPair) (m : TokenPair) (h : pymax l = some m) : m ∈ l := by
  obtain ⟨l₁, l₂, rfl, -, -⟩ := pymax_spec l m h
  simp

theorem pymax_le (l : List TokenPair) (m : TokenPair) (h : pymax l = some m) :
    ∀ y ∈ l, y.frequency ≤ m.frequency := by
  obtain ⟨l₁, l₂, rfl, hpre, hpost⟩ := pymax_spec l m h
  intro y hy
  rcases List.mem_append.mp hy with hy | hy
  · exact le_of_lt (hpre y hy)
  · rcases List.mem_cons.mp hy with rfl | hy
    · exact le_refl _
    · exact hpost y hy

theorem pymax_isSome (l : List TokenPair) (h : l ≠ []) : ∃ m, pymax l = some m := by
  match l with
  | x :: xs => exact ⟨_, rfl⟩

/-! ### Facts about `listMax` (Python `max` on int lists) -/

theorem le_foldl_max (l : List Nat) (a : Nat) : a ≤ l.foldl Nat.max a := by
  induction l generalizing a with
  | nil => exact le_refl _
  | cons y ys ih => exact le_trans (Nat.le_max_left a y) (ih (Nat.max a y))

theorem mem_le_foldl_max (l : List Nat) (a x : Nat) (hx : x ∈ l) : x ≤ l.foldl Nat.max a := by
  induction l generalizing a with
  | nil => cases hx
  | cons y ys ih =>
    rcases List.mem_cons.mp hx with rfl | hx
    · exact le_trans (Nat.le_max_right a x) (le_foldl_max ys (Nat.max a x))
    · exact ih (Nat.max a y) hx

theorem foldl_max_le (l : List Nat) (a m : Nat) (ha : a ≤ m) (h : ∀ x ∈ l, x ≤ m) :
    l.foldl Nat.max a ≤ m := by
  induction l generalizing a with
  | nil => exact ha
  | cons y ys ih =>
    exact ih (Nat.max a y) (Nat.max_le.mpr ⟨ha, h y (List.mem_cons_self y ys)⟩)
      (fun x hx => h x (List.mem_cons_of_mem y hx))

theorem foldl_max_mem (l : List Nat) (a : Nat) :
    l.foldl Nat.max a = a ∨ l.foldl Nat.max a ∈ l := by
  induction l generalizing a with
  | nil => exact Or.inl rfl
  | cons y ys ih =>
    rcases ih (Nat.max a y) with h | h
    · have hm : Nat.max a y = a ∨ Nat.max a y = y := by
        rcases Nat.le_total y a with hle | hle
        · exact Or.inl (Nat.max_eq_left hle)
        · exact Or.inr (Nat.max_eq_right hle)
      rcases hm with hm | hm
      · exact Or.inl (by rw [List.foldl_cons, h, hm])
      · exact Or.inr (by rw [List.foldl_cons, h, hm]; exact List.mem_cons_self y ys)
    · exact Or.inr (List.mem_cons_of_mem y h)

theorem listMax_eq (l : List Nat) (m : Nat) (hm : m ∈ l) (hall : ∀ x ∈ l, x ≤ m) :
    listMax l = some m := by
  match l with
  | x :: xs =>
    simp only [listMax, Option.some.injEq]
    refine le_antisymm ?_ ?_
    · exact foldl_max_le xs x m (hall x (List.mem_cons_self x xs))
        (fun y hy => hall y (List.mem_cons_of_mem x hy))
    · rcases List.mem_cons.mp hm with rfl | hm
      · exact le_foldl_max xs m
      · exact mem_le_foldl_max xs x m hm

theorem listMax_mem (l : List Nat) (m : Nat) (h : listMax l = some m) : m ∈ l := by
  match l with
  | x :: xs =>
    simp only [listMax, Option.some.injEq] at h
    subst h
    rcases foldl_max_mem xs x with h | h
    · rw [h]; exact List.mem_cons_self x xs
    · exact List.mem_cons_of_mem x h

theorem listMax_ge (l : List Nat) (m x : Nat) (h : listMax l = some m) (hx : x ∈ l) :
    x ≤ m := by
  match l with
  | y :: ys =>
    simp only [listMax, Option.some.injEq] at h
    subst h
    rcases List.mem_cons.mp hx with rfl | hx
    · exact le_foldl_max ys x
    · exact mem_le_foldl_max ys y x hx

theorem listMax_isSome (l : List Nat) (h : l ≠ []) : ∃ m, listMax l = some m := by
  match l with
  | x :: xs => exact ⟨_, rfl⟩

/-! ### Facts about `adjPairs`, `countOcc`, `firstIdx` -/

theorem adjPairs_cons₂ (x y : Nat) (rest : List Nat) :
    adjPairs (x :: y :: rest) = (x, y) :: adjPairs (y :: rest) := rfl

theorem mem_of_mem_adjPairs :
    ∀ (ts : List Nat) (a b : Nat), (a, b) ∈ adjPairs ts → a ∈ ts ∧ b ∈ ts
  | [], _, _, h => by simp [adjPairs] at h
  | [_], _, _, h => by simp [adjPairs] at h
  | x :: y :: rest, a, b, h => by
    rw [adjPairs_cons₂] at h
    rcases List.mem_cons.mp h with h | h
    · rw [Prod.mk.injEq] at h
      obtain ⟨rfl, rfl⟩ := h
      exact ⟨List.mem_cons_self _ _, List.mem_cons_of_mem _ (List.mem_cons_self _ _)⟩
    · have := mem_of_mem_adjPairs (y :: rest) a b h
      exact ⟨List.mem_cons_of_mem _ this.1, List.mem_cons_of_mem _ this.2⟩

theorem adjPairs_ne_nil (x y : Nat) (rest : List Nat) :
    adjPairs (x :: y :: rest) ≠ [] := by
  rw [adjPairs_cons₂]
  exact List.cons_ne_nil _ _

theorem countOcc_pos_iff_mem (l : List (Nat × Nat)) (p : Nat × Nat) :
    0 < countOcc l p ↔ p ∈ l := by
  induction l with
  | nil => simp [countOcc]
  | cons q rest ih =>
    by_cases h : q = p
    · subst h
      simp [countOcc]
    · simp only [countOcc, if_neg h]
      rw [List.mem_cons]
      constructor
      · intro hp
        exact Or.inr (ih.mp (by omega))
      · intro hp
        rcases hp with hp | hp
        · exact absurd hp.symm h
        · have := ih.mpr hp
          omega

theorem firstIdx_append_of_mem (l₁ l₂ : List (Nat × Nat)) (p : Nat × Nat) (h : p ∈ l₁) :
    firstIdx (l₁ ++ l₂) p = firstIdx l₁ p := by
  induction l₁ with
  | nil => cases h
  | cons q rest ih =>
    by_cases hq : q = p
    · simp [firstIdx, hq]
    · rcases List.mem_cons.mp h with rfl | h
      · exact absurd rfl hq
      · simp [firstIdx, hq, ih h]

theorem firstIdx_append_of_not_mem (l₁ l₂ : List (Nat × Nat)) (p : Nat × Nat) (h : p ∉ l₁) :
    firstIdx (l₁ ++ l₂) p = l₁.length + firstIdx l₂ p := by
  induction l₁ with
  | nil => simp
  | cons q rest ih =>
    have hq : q ≠ p := fun hqp => h (hqp ▸ List.mem_cons_self q rest)
    have hr : p ∉ rest := fun hp => h (List.mem_cons_of_mem q hp)
    simp [firstIdx, hq, ih hr]
    omega

theorem firstIdx_lt_length_of_mem (l : List (Nat × Nat)) (p : Nat × Nat) (h : p ∈ l) :
    firstIdx l p < l.length := by
  induction l with
  | nil => cases h
  | cons q rest ih =>
    by_cases hq : q = p
    · simp [firstIdx, hq]
    · rcases List.mem_cons.mp h with rfl | h
      · exact absurd rfl hq
      · simp only [firstIdx, if_neg hq, List.length_cons]
        exact Nat.succ_lt_succ (ih h)

/-! ### Characterization of `count`: dict insertion order and frequencies -/

theorem countOcc_append (l₁ l₂ : List (Nat × Nat)) (p : Nat × Nat) :
    countOcc (l₁ ++ l₂) p = countOcc l₁ p + countOcc l₂ p := by
  induction l₁ with
  | nil => simp [countOcc]
  | cons q rest ih =>
    rw [List.cons_append]
    show (if q = p then 1 else 0) + countOcc (rest ++ l₂) p =
      ((if q = p then 1 else 0) + countOcc rest p) + countOcc l₂ p
    rw [ih]
    omega

theorem countOcc_singleton (q p : Nat × Nat) :
    countOcc [q] p = if p = q then 1 else 0 := by
  by_cases h : p = q
  · subst h
    simp [countOcc]
  · have h' : q ≠ p := fun hq => h hq.symm
    simp [countOcc, h, h']

theorem countOcc_eq_zero (l : List (Nat × Nat)) (p : Nat × Nat) (h : p ∉ l) :
    countOcc l p = 0 := by
  by_contra hne
  exact h ((countOcc_pos_iff_mem l p).mp (Nat.pos_of_ne_zero hne))

theorem seen_step_mem (acc : List (Nat × Nat)) (q p : Nat × Nat) :
    (p ∈ if q ∈ acc then acc else acc ++ [q]) ↔ p ∈ acc ∨ p = q := by
  by_cases h : q ∈ acc
  · rw [if_pos h]
    exact ⟨Or.inl, fun h' => h'.elim id (fun hpq => hpq ▸ h)⟩
  · rw [if_neg h]
    simp

theorem seen_foldl_mem (l : List (Nat × Nat)) :
    ∀ (acc : List (Nat × Nat)) (p : Nat × Nat),
      p ∈ l.foldl (fun acc p => if p ∈ acc then acc else acc ++ [p]) acc ↔
        p ∈ acc ∨ p ∈ l := by
  induction l with
  | nil => simp
  | cons q rest ih =>
    intro acc p
    simp only [List.foldl_cons]
    rw [ih, seen_step_mem, List.mem_cons]
    tauto

theorem mem_seenKeys (l : List (Nat × Nat)) (p : Nat × Nat) :
    p ∈ seenKeys l ↔ p ∈ l := by
  rw [seenKeys, seen_foldl_mem]
  simp

theorem seen_foldl_nodup (l : List (Nat × Nat)) :
    ∀ (acc : List (Nat × Nat)), acc.Nodup →
      (l.foldl (fun acc p => if p ∈ acc then acc else acc ++ [p]) acc).Nodup := by
  induction l with
  | nil => exact fun acc h => h
  | cons q rest ih =>
    intro acc hacc
    simp only [List.foldl_cons]
    apply ih
    by_cases h : q ∈ acc
    · rw [if_pos h]; exact hacc
    · rw [if_neg h]
      rw [List.nodup_append]
      refine ⟨hacc, List.nodup_singleton q, ?_⟩
      intro a ha hext
      rw [List.mem_singleton] at hext
      subst hext
      exact h ha

theorem seenKeys_nodup (l : List (Nat × Nat)) : (seenKeys l).Nodup :=
  seen_foldl_nodup l [] List.nodup_nil

theorem seenKeys_append (l : List (Nat × Nat)) (q : Nat × Nat) :
    seenKeys (l ++ [q]) =
      if q ∈ seenKeys l then seenKeys l else seenKeys l ++ [q] := by
  rw [seenKeys, List.foldl_append]
  rfl

theorem seen_foldl_ordered (L : List (Nat × Nat)) :
    ∀ (suf pre acc : List (Nat × Nat)), L = pre ++ suf →
      (∀ p, p ∈ acc ↔ p ∈ pre) →
      acc.Pairwise (fun p q => firstIdx L p < firstIdx L q) →
      (suf.foldl (fun acc p => if p ∈ acc then acc else acc ++ [p]) acc).Pairwise
        (fun p q => firstIdx L p < firstIdx L q) := by
  intro suf
  induction suf with
  | nil =>
    intro pre acc _ _ hpw
    simpa using hpw
  | cons q suf ih =>
    intro pre acc hL hmem hpw
    simp only [List.foldl_cons]
    by_cases hq : q ∈ acc
    · rw [if_pos hq]
      apply ih (pre ++ [q]) acc (hL.trans (List.append_cons pre q suf)) ?_ hpw
      intro p
      rw [hmem p, List.mem_append, List.mem_singleton]
      constructor
      · exact Or.inl
      · rintro (h | rfl)
        · exact h
        · exact (hmem _).mp hq
    · rw [if_neg hq]
      apply ih (pre ++ [q]) (acc ++ [q]) (hL.trans (List.append_cons pre q suf)) ?_ ?_
      · intro p
        simp [hmem p]
      · rw [List.pairwise_append]
        refine ⟨hpw, List.pairwise_singleton _ _, ?_⟩
        intro a ha q' hq'
        rw [List.mem_singleton] at hq'
        rw [show q' = q from hq']
        have haPre : a ∈ pre := (hmem a).mp ha
        have hqPre : q ∉ pre := fun h => hq ((hmem q).mpr h)
        have h1 : firstIdx L a < pre.length := by
          rw [hL, firstIdx_append_of_mem pre (q :: suf) a haPre]
          exact firstIdx_lt_length_of_mem pre a haPre
        have h2 : pre.length ≤ firstIdx L q := by
          rw [hL, firstIdx_append_of_not_mem pre (q :: suf) q hqPre]
          omega
        omega

theorem seenKeys_ordered (L : List (Nat × Nat)) :
    (seenKeys L).Pairwise (fun p q => firstIdx L p < firstIdx L q) :=
  seen_foldl_ordered L L [] [] rfl (by simp) List.Pairwise.nil

theorem bump_append_of_not_mem :
    ∀ (acc : List TokenPair) (a b : Nat), (∀ tp ∈ acc, tp.key ≠ (a, b)) →
      bump acc a b = acc ++ [⟨a, b, 1⟩]
  | [], _, _, _ => rfl
  | tp :: rest, a, b, h => by
    have hne : ¬(tp.first_token = a ∧ tp.second_token = b) := by
      intro ⟨h1, h2⟩
      exact h tp (List.mem_cons_self tp rest) (by simp [TokenPair.key, h1, h2])
    simp only [bump, if_neg hne, List.cons_append, List.cons.injEq, true_and]
    exact bump_append_of_not_mem rest a b
      (fun tp' htp' => h tp' (List.mem_cons_of_mem tp htp'))

theorem bump_map_update (ks : List (Nat × Nat)) (f : Nat × Nat → Nat) (q : Nat × Nat)
    (hnd : ks.Nodup) (hq : q ∈ ks) :
    bump (ks.map (fun p => ⟨p.1, p.2, f p⟩)) q.1 q.2 =
      ks.map (fun p => ⟨p.1, p.2, if p = q then f p + 1 else f p⟩) := by
  induction ks with
  | nil => cases hq
  | cons k ks' ih =>
    rw [List.nodup_cons] at hnd
    by_cases hkq : k = q
    · subst hkq
      have hhead :
          bump (List.map (fun p => (⟨p.1, p.2, f p⟩ : TokenPair)) (k :: ks')) k.1 k.2 =
            (⟨k.1, k.2, f k + 1⟩ : TokenPair) ::
              List.map (fun p => (⟨p.1, p.2, f p⟩ : TokenPair)) ks' := by
        simp [bump]
      have htail : List.map (fun p => (⟨p.1, p.2, f p⟩ : TokenPair)) ks' =
          List.map (fun p => (⟨p.1, p.2, if p = k then f p + 1 else f p⟩ : TokenPair)) ks' := by
        apply List.map_congr_left
        intro p hp
        have hpk : p ≠ k := fun h => hnd.1 (h ▸ hp)
        rw [if_neg hpk]
      rw [hhead, List.map_cons, if_pos rfl, htail]
    · have hcond : ¬((⟨k.1, k.2, f k⟩ : TokenPair).first_token = q.1 ∧
          (⟨k.1, k.2, f k⟩ : TokenPair).second_token = q.2) := by
        intro hh
        exact hkq (Prod.ext hh.1 hh.2)
      simp only [List.map_cons, bump]
      rw [if_neg hcond, if_neg hkq]
      congr 1
      have hq' : q ∈ ks' := by
        rcases List.mem_cons.mp hq with h | h
        · exact absurd h.symm hkq
        · exact h
      exact ih hnd.2 hq'

theorem countGo_char :
    ∀ (ps pre : List (Nat × Nat)),
      countGo ((seenKeys pre).map (fun p => ⟨p.1, p.2, countOcc pre p⟩)) ps =
        (seenKeys (pre ++ ps)).map (fun p => ⟨p.1, p.2, countOcc (pre ++ ps) p⟩) := by
  intro ps
  induction ps with
  | nil =>
    intro pre
    simp [countGo]
  | cons q ps ih =>
    intro pre
    simp only [countGo]
    have hstep :
        bump ((seenKeys pre).map (fun p => ⟨p.1, p.2, countOcc pre p⟩)) q.1 q.2 =
          (seenKeys (pre ++ [q])).map (fun p => ⟨p.1, p.2, countOcc (pre ++ [q]) p⟩) := by
      by_cases hq : q ∈ pre
      · have hq' : q ∈ seenKeys pre := (mem_seenKeys pre q).mpr hq
        rw [bump_map_update (seenKeys pre) (countOcc pre) q (seenKeys_nodup pre) hq']
        rw [seenKeys_append, if_pos hq']
        apply List.map_congr_left
        intro p hp
        rw [countOcc_append, countOcc_singleton]
        by_cases hpq : p = q
        · rw [if_pos hpq, if_pos hpq]
        · rw [if_neg hpq, if_neg hpq, Nat.add_zero]
      · have hq' : q ∉ seenKeys pre := fun h => hq ((mem_seenKeys pre q).mp h)
        rw [bump_append_of_not_mem _ _ _ ?hfresh]
        case hfresh =>
          intro tp htp
          rw [List.mem_map] at htp
          obtain ⟨p, hp, rfl⟩ := htp
          have hpPre : p ∈ pre := (mem_seenKeys pre p).mp hp
          have : p ≠ q := fun h => hq (h ▸ hpPre)
          simp only [TokenPair.key, ne_eq, Prod.mk.injEq, not_and]
          intro h1 h2
          exact absurd (Prod.ext h1 h2) this
        rw [seenKeys_append, if_neg hq', List.map_append]
        congr 1
        · apply List.map_congr_left
          intro p hp
          have hpPre : p ∈ pre := (mem_seenKeys pre p).mp hp
          have hpq : p ≠ q := fun h => hq (h ▸ hpPre)
          rw [countOcc_append, countOcc_singleton, if_neg hpq, Nat.add_zero]
        · simp only [List.map_cons, List.map_nil, List.cons.injEq, and_true]
          rw [countOcc_append, countOcc_singleton, if_pos rfl,
            countOcc_eq_zero pre q hq]
    rw [hstep, ih (pre ++ [q]), List.append_assoc, List.singleton_append]

theorem count_char (ts : List Nat) :
    count ts = (seenKeys (adjPairs ts)).map
      (fun p => ⟨p.1, p.2, countOcc (adjPairs ts) p⟩) := by
  have h := countGo_char (adjPairs ts) []
  simpa [count, seenKeys] using h

theorem count_elim (ts : List Nat) (tp : TokenPair) (h : tp ∈ count ts) :
    tp.key ∈ adjPairs ts ∧ tp.frequency = countOcc (adjPairs ts) tp.key := by
  rw [count_char, List.mem_map] at h
  obtain ⟨p, hp, rfl⟩ := h
  have hmem : p ∈ adjPairs ts := (mem_seenKeys _ p).mp hp
  constructor
  · simpa [TokenPair.key] using hmem
  · simp [TokenPair.key]

theorem count_intro (ts : List Nat) (p : Nat × Nat) (h : p ∈ adjPairs ts) :
    (⟨p.1, p.2, countOcc (adjPairs ts) p⟩ : TokenPair) ∈ count ts := by
  rw [count_char, List.mem_map]
  exact ⟨p, (mem_seenKeys _ p).mpr h, rfl⟩

theorem count_freq_pos (ts : List Nat) (tp : TokenPair) (h : tp ∈ count ts) :
    1 ≤ tp.frequency := by
  obtain ⟨hmem, hfreq⟩ := count_elim ts tp h
  rw [hfreq]
  exact (countOcc_pos_iff_mem _ _).mpr hmem

theorem count_ne_nil (x y : Nat) (rest : List Nat) : count (x :: y :: rest) ≠ [] := by
  intro h
  have := count_intro (x :: y :: rest) (x, y)
    (by rw [adjPairs_cons₂]; exact List.mem_cons_self _ _)
  rw [h] at this
  cases this

theorem map_decomp {α β : Type} (f : α → β) :
    ∀ (l : List α) (l₁ : List β) (b : β) (l₂ : List β), l.map f = l₁ ++ b :: l₂ →
      ∃ m₁ a m₂, l = m₁ ++ a :: m₂ ∧ m₁.map f = l₁ ∧ f a = b ∧ m₂.map f = l₂
  | [], l₁, b, l₂, h => by
    simp only [List.map_nil] at h
    exact absurd h.symm (List.append_ne_nil_of_right_ne_nil l₁ (List.cons_ne_nil b l₂))
  | x :: xs, [], b, l₂, h => by
    simp only [List.map_cons, List.nil_append, List.cons.injEq] at h
    exact ⟨[], x, xs, rfl, rfl, h.1, h.2⟩
  | x :: xs, c :: l₁', b, l₂, h => by
    simp only [List.map_cons, List.cons_append, List.cons.injEq] at h
    obtain ⟨m₁, a, m₂, heq, hm₁, hfa, hm₂⟩ := map_decomp f xs l₁' b l₂ h.2
    exact ⟨x :: m₁, a, m₂, by rw [heq, List.cons_append], by rw [List.map_cons, hm₁, h.1],
      hfa, hm₂⟩

/-! ### Facts about `swapPass` (the greedy rewrite of `swap_top`) -/

theorem swapPass_nil (a b t : Nat) : swapPass a b t [] = [] := rfl

theorem swapPass_single (a b t x : Nat) : swapPass a b t [x] = [x] := rfl

theorem swapPass_cons₂ (a b t A B : Nat) (rest : List Nat) :
    swapPass a b t (A :: B :: rest) =
      if A = a ∧ B = b then t :: swapPass a b t rest
      else A :: swapPass a b t (B :: rest) := rfl

theorem swapPass_mem (a b t : Nat) :
    ∀ (ts : List Nat) (x : Nat), x ∈ swapPass a b t ts → x = t ∨ x ∈ ts
  | [], x, h => by rw [swapPass_nil] at h; exact Or.inr h
  | [y], x, h => by rw [swapPass_single] at h; exact Or.inr h
  | A :: B :: rest, x, h => by
    rw [swapPass_cons₂] at h
    by_cases hc : A = a ∧ B = b
    · rw [if_pos hc] at h
      rcases List.mem_cons.mp h with rfl | h
      · exact Or.inl rfl
      · rcases swapPass_mem a b t rest x h with h | h
        · exact Or.inl h
        · exact Or.inr (by simp [h])
    · rw [if_neg hc] at h
      rcases List.mem_cons.mp h with rfl | h
      · exact Or.inr (List.mem_cons_self _ _)
      · rcases swapPass_mem a b t (B :: rest) x h with h | h
        · exact Or.inl h
        · exact Or.inr (List.mem_cons_of_mem _ h)

theorem swapPass_mint_mem (a b t : Nat) :
    ∀ (ts : List Nat), (a, b) ∈ adjPairs ts → t ∈ swapPass a b t ts
  | [], h => by simp [adjPairs] at h
  | [y], h => by simp [adjPairs] at h
  | A :: B :: rest, h => by
    rw [adjPairs_cons₂] at h
    rw [swapPass_cons₂]
    by_cases hc : A = a ∧ B = b
    · rw [if_pos hc]
      exact List.mem_cons_self _ _
    · rw [if_neg hc]
      rcases List.mem_cons.mp h with heq | h
      · rw [Prod.mk.injEq] at heq
        exact absurd ⟨heq.1.symm, heq.2.symm⟩ hc
      · exact List.mem_cons_of_mem _ (swapPass_mint_mem a b t (B :: rest) h)

theorem swapPass_ne_nil (a b t : Nat) :
    ∀ (ts : List Nat), ts ≠ [] → swapPass a b t ts ≠ []
  | [], h => absurd rfl h
  | [y], _ => by rw [swapPass_single]; exact List.cons_ne_nil _ _
  | A :: B :: rest, _ => by
    rw [swapPass_cons₂]
    by_cases hc : A = a ∧ B = b
    · rw [if_pos hc]; exact List.cons_ne_nil _ _
    · rw [if_neg hc]; exact List.cons_ne_nil _ _

theorem expandMint_cons (mint a b x : Nat) (rest : List Nat) :
    expandMint mint a b (x :: rest) =
      (if x = mint then [a, b] else [x]) ++ expandMint mint a b rest := rfl

/-- The greedy pass is inverted by one-step expansion of the minted symbol:
every `mint` in the output stands for exactly one removed occurrence of
`(a, b)`, and all unmatched symbols are preserved in order. -/
theorem swapPass_expandMint (a b t : Nat) :
    ∀ (ts : List Nat), (∀ x ∈ ts, x ≠ t) →
      expandMint t a b (swapPass a b t ts) = ts
  | [], _ => rfl
  | [y], h => by
    rw [swapPass_single, expandMint_cons, if_neg (h y (List.mem_cons_self _ _))]
    rfl
  | A :: B :: rest, h => by
    rw [swapPass_cons₂]
    by_cases hc : A = a ∧ B = b
    · obtain ⟨hA, hB⟩ := hc
      subst hA
      subst hB
      rw [if_pos ⟨rfl, rfl⟩, expandMint_cons, if_pos rfl,
        swapPass_expandMint A B t rest (fun x hx => h x (by simp [hx]))]
      rfl
    · rw [if_neg hc, expandMint_cons, if_neg (h A (List.mem_cons_self _ _)),
        swapPass_expandMint a b t (B :: rest)
          (fun x hx => h x (List.mem_cons_of_mem _ hx))]
      rfl

/-! ### Facts about the dict model -/

theorem insertD_cons (k' : Nat) (v' : TokenPair) (rest : List (Nat × TokenPair))
    (k : Nat) (v : TokenPair) :
    insertD ((k', v') :: rest) k v =
      if k' = k then (k', v) :: rest else (k', v') :: insertD rest k v := rfl

theorem lookupD_cons (k' : Nat) (v' : TokenPair) (rest : List (Nat × TokenPair)) (t : Nat) :
    lookupD ((k', v') :: rest) t = if k' = t then some v' else lookupD rest t := rfl

theorem lookupD_insertD :
    ∀ (d : List (Nat × TokenPair)) (k : Nat) (v : TokenPair) (t : Nat),
      lookupD (insertD d k v) t = if k = t then some v else lookupD d t
  | [], k, v, t => by
    simp [insertD, lookupD]
  | (k', v') :: rest, k, v, t => by
    rw [insertD_cons]
    by_cases hk : k' = k
    · subst hk
      rw [if_pos rfl]
      simp only [lookupD_cons]
      by_cases ht : k' = t <;> simp [ht]
    · rw [if_neg hk]
      simp only [lookupD_cons]
      by_cases ht : k' = t
      · have hkt : k ≠ t := fun h => hk (h ▸ ht)
        simp [ht, hkt]
      · simp [ht, lookupD_insertD rest k v t]

theorem insertE_cons (k' : Nat × Nat) (v' : Nat) (rest : List ((Nat × Nat) × Nat))
    (k : Nat × Nat) (v : Nat) :
    insertE ((k', v') :: rest) k v =
      if k' = k then (k', v) :: rest else (k', v') :: insertE rest k v := rfl

theorem lookupE_cons (k' : Nat × Nat) (v' : Nat) (rest : List ((Nat × Nat) × Nat))
    (p : Nat × Nat) :
    lookupE ((k', v') :: rest) p = if k' = p then some v' else lookupE rest p := rfl

theorem lookupE_insertE :
    ∀ (e : List ((Nat × Nat) × Nat)) (k : Nat × Nat) (v : Nat) (p : Nat × Nat),
      lookupE (insertE e k v) p = if k = p then some v else lookupE e p
  | [], k, v, p => by
    simp [insertE, lookupE]
  | (k', v') :: rest, k, v, p => by
    rw [insertE_cons]
    by_cases hk : k' = k
    · subst hk
      rw [if_pos rfl]
      simp only [lookupE_cons]
      by_cases hp : k' = p <;> simp [hp]
    · rw [if_neg hk]
      simp only [lookupE_cons]
      by_cases hp : k' = p
      · have hkp : k ≠ p := fun h => hk (h ▸ hp)
        simp [hp, hkp]
      · simp [hp, lookupE_insertE rest k v p]

/-! ### `mergedState` field equations -/

theorem mergedState_tokens (st : TState) (tp : TokenPair) :
    (mergedState st tp).encoded_tokens =
      swapPass tp.first_token tp.second_token st.mint_token st.encoded_tokens := rfl

theorem mergedState_dmap (st : TState) (tp : TokenPair) :
    (mergedState st tp).decoding_map = insertD st.decoding_map st.mint_token tp := rfl

theorem mergedState_emap (st : TState) (tp : TokenPair) :
    (mergedState st tp).encoding_map =
      insertE st.encoding_map (tp.first_token, tp.second_token) st.mint_token := rfl

theorem mergedState_mint (st : TState) (tp : TokenPair) :
    (mergedState st tp).mint_token = st.mint_token + 1 := rfl

theorem mergedState_vocab (st : TState) (tp : TokenPair) :
    (mergedState st tp).encoding_vocab_size = st.encoding_vocab_size := rfl

/-! ### `swap_top` equations and inversion -/

theorem swap_top_eq_err (st : TState) (htop : get_most_common st = none) :
    swap_top st = .error .valueError := by
  simp only [swap_top, htop]

theorem swap_top_eq_sat (st : TState) (tp : TokenPair)
    (htop : get_most_common st = some tp) (hf : tp.frequency = 1) :
    swap_top st = .ok (st, true) := by
  simp only [swap_top, htop, if_pos hf]

theorem swap_top_eq_merge (st : TState) (tp : TokenPair) (mx : Nat)
    (htop : get_most_common st = some tp) (hf : ¬tp.frequency = 1)
    (hmx : listMax (mergedState st tp).encoded_tokens = some mx) :
    swap_top st = .ok (mergedState st tp, decide (mx + 1 = st.encoding_vocab_size)) := by
  simp only [swap_top, htop, if_neg hf, hmx]

theorem swap_top_eq_merge_err (st : TState) (tp : TokenPair)
    (htop : get_most_common st = some tp) (hf : ¬tp.frequency = 1)
    (hmx : listMax (mergedState st tp).encoded_tokens = none) :
    swap_top st = .error .valueError := by
  simp only [swap_top, htop, if_neg hf, hmx]

theorem swap_top_cases (st st' : TState) (done : Bool)
    (h : swap_top st = .ok (st', done)) :
    ∃ tp, get_most_common st = some tp ∧
      ((tp.frequency = 1 ∧ st' = st ∧ done = true) ∨
       (tp.frequency ≠ 1 ∧ st' = mergedState st tp ∧
        ∃ mx, listMax (mergedState st tp).encoded_tokens = some mx ∧
          done = decide (mx + 1 = st.encoding_vocab_size))) := by
  cases htop : get_most_common st with
  | none =>
    rw [swap_top_eq_err st htop] at h
    cases h
  | some tp =>
    by_cases hf : tp.frequency = 1
    · rw [swap_top_eq_sat st tp htop hf] at h
      simp only [Except.ok.injEq, Prod.mk.injEq] at h
      exact ⟨tp, rfl, Or.inl ⟨hf, h.1.symm, h.2.symm⟩⟩
    · cases hmx : listMax (mergedState st tp).encoded_tokens with
      | none =>
        rw [swap_top_eq_merge_err st tp htop hf hmx] at h
        cases h
      | some mx =>
        rw [swap_top_eq_merge st tp mx htop hf hmx] at h
        simp only [Except.ok.injEq, Prod.mk.injEq] at h
        exact ⟨tp, rfl, Or.inr ⟨hf, h.1.symm, mx, hmx, h.2.symm⟩⟩

/-! ### Facts derived about the selected top pair -/

theorem top_pair_facts (st : TState) (tp : TokenPair)
    (htc : st.tcounts = count st.encoded_tokens)
    (htop : get_most_common st = some tp) :
    tp ∈ count st.encoded_tokens ∧ tp.key ∈ adjPairs st.encoded_tokens ∧
      tp.frequency = countOcc (adjPairs st.encoded_tokens) tp.key ∧ 1 ≤ tp.frequency := by
  have hmem : tp ∈ count st.encoded_tokens := by
    rw [← htc]
    exact pymax_mem _ tp htop
  obtain ⟨hkey, hfreq⟩ := count_elim _ tp hmem
  exact ⟨hmem, hkey, hfreq, count_freq_pos _ tp hmem⟩

theorem mergedState_listMax (st : TState) (tp : TokenPair)
    (htc : st.tcounts = count st.encoded_tokens)
    (htop : get_most_common st = some tp)
    (hlt : ∀ x ∈ st.encoded_tokens, x < st.mint_token) :
    listMax (mergedState st tp).encoded_tokens = some st.mint_token := by
  obtain ⟨hmem, hkey, hfreq, hpos⟩ := top_pair_facts st tp htc htop
  rw [mergedState_tokens]
  apply listMax_eq
  · exact swapPass_mint_mem _ _ _ _ hkey
  · intro x hx
    rcases swapPass_mem _ _ _ _ x hx with rfl | hx
    · exact le_refl _
    · exact le_of_lt (hlt x hx)

/-! ### Preservation of the training invariant -/

theorem Inv_mergedState (st : TState) (tp : TokenPair) (hinv : Inv st)
    (htop : get_most_common st = some tp) : Inv (mergedState st tp) := by
  obtain ⟨hmem, hkey, hfreq, hpos⟩ := top_pair_facts st tp hinv.tc htop
  have hab := mem_of_mem_adjPairs st.encoded_tokens tp.first_token tp.second_token hkey
  have ha : tp.first_token < st.mint_token := hinv.toks_lt _ hab.1
  have hb : tp.second_token < st.mint_token := hinv.toks_lt _ hab.2
  constructor
  · intro x hx
    rw [mergedState_tokens] at hx
    rw [mergedState_mint]
    rcases swapPass_mem _ _ _ _ x hx with rfl | hx
    · omega
    · have := hinv.toks_lt x hx
      omega
  · rw [mergedState_mint]
    have := hinv.mint_ge
    omega
  · intro t tp' h
    rw [mergedState_dmap, lookupD_insertD] at h
    by_cases hkt : st.mint_token = t
    · subst hkt
      exact hinv.mint_ge
    · rw [if_neg hkt] at h
      exact hinv.dkeys_ge t tp' h
  · intro t tp' h
    rw [mergedState_dmap, lookupD_insertD] at h
    rw [mergedState_mint]
    by_cases hkt : st.mint_token = t
    · omega
    · rw [if_neg hkt] at h
      have := hinv.dkeys_lt t tp' h
      omega
  · intro t tp' h
    rw [mergedState_dmap, lookupD_insertD] at h
    by_cases hkt : st.mint_token = t
    · rw [if_pos hkt] at h
      rw [Option.some.injEq] at h
      subst h
      subst hkt
      exact ⟨ha, hb⟩
    · rw [if_neg hkt] at h
      exact hinv.grounded t tp' h
  · intro a b t h
    rw [mergedState_emap, lookupE_insertE] at h
    rw [mergedState_dmap]
    by_cases hkp : (tp.first_token, tp.second_token) = (a, b)
    · rw [if_pos hkp] at h
      rw [Option.some.injEq] at h
      subst h
      rw [Prod.mk.injEq] at hkp
      refine ⟨tp, ?_, hkp.1, hkp.2⟩
      rw [lookupD_insertD, if_pos rfl]
    · rw [if_neg hkp] at h
      obtain ⟨tp'', hlook, h1, h2⟩ := hinv.consistent a b t h
      have htlt : t < st.mint_token := hinv.dkeys_lt t tp'' hlook
      refine ⟨tp'', ?_, h1, h2⟩
      rw [lookupD_insertD, if_neg (by omega)]
      exact hlook
  · rfl

theorem swap_top_inv (st st' : TState) (done : Bool) (hinv : Inv st)
    (h : swap_top st = .ok (st', done)) : Inv st' := by
  obtain ⟨tp, htop, hcase⟩ := swap_top_cases st st' done h
  rcases hcase with ⟨-, rfl, -⟩ | ⟨-, rfl, -⟩
  · exact hinv
  · exact Inv_mergedState st tp hinv htop

theorem swap_top_vocab (st st' : TState) (done : Bool)
    (h : swap_top st = .ok (st', done)) :
    st'.encoding_vocab_size = st.encoding_vocab_size := by
  obtain ⟨tp, htop, hcase⟩ := swap_top_cases st st' done h
  rcases hcase with ⟨-, rfl, -⟩ | ⟨-, rfl, -⟩
  · rfl
  · rfl

/-! ### `trainLoop` facts -/

theorem trainLoop_inv :
    ∀ (fuel : Nat) (st st' : TState), Inv st → trainLoop fuel st = .ok st' → Inv st'
  | 0, _, _, _, h => by cases h
  | fuel + 1, st, st', hinv, h => by
    simp only [trainLoop] at h
    cases hrun : swap_top st with
    | error e =>
      rw [hrun] at h
      cases h
    | ok res =>
      obtain ⟨st₁, done⟩ := res
      rw [hrun] at h
      have hinv₁ : Inv st₁ := swap_top_inv st st₁ done hinv hrun
      cases done with
      | true =>
        simp only [Except.ok.injEq] at h
        subst h
        exact hinv₁
      | false => exact trainLoop_inv fuel st₁ st' hinv₁ h

theorem trainLoop_vocab :
    ∀ (fuel : Nat) (st st' : TState), trainLoop fuel st = .ok st' →
      st'.encoding_vocab_size = st.encoding_vocab_size
  | 0, _, _, h => by cases h
  | fuel + 1, st, st', h => by
    simp only [trainLoop] at h
    cases hrun : swap_top st with
    | error e =>
      rw [hrun] at h
      cases h
    | ok res =>
      obtain ⟨st₁, done⟩ := res
      rw [hrun] at h
      have hv := swap_top_vocab st st₁ done hrun
      cases done with
      | true =>
        simp only [Except.ok.injEq] at h
        subst h
        exact hv
      | false => exact (trainLoop_vocab fuel st₁ st' h).trans hv

theorem trainLoop_unique :
    ∀ (fuel : Nat) (st st' : TState), trainLoop fuel st = .ok st' →
      ∀ (fuel₂ : Nat) (st'' : TState), trainLoop fuel₂ st = .ok st'' → st' = st''
  | 0, _, _, h => by cases h
  | fuel + 1, st, st', h => by
    intro fuel₂ st'' h₂
    match fuel₂ with
    | 0 => cases h₂
    | fuel₂ + 1 =>
      simp only [trainLoop] at h h₂
      cases hrun : swap_top st with
      | error e =>
        rw [hrun] at h
        cases h
      | ok res =>
        obtain ⟨st₁, done⟩ := res
        rw [hrun] at h h₂
        cases done with
        | true =>
          simp only [Except.ok.injEq] at h h₂
          rw [← h, ← h₂]
        | false => exact trainLoop_unique fuel st₁ st' h fuel₂ st'' h₂

theorem initState_inv (toks : List Nat) (v : Nat) (n : String) (p : Option String)
    (h : ∀ x ∈ toks, x < 256) : Inv (initState toks v n p) := by
  constructor
  · intro x hx
    exact h x hx
  · exact le_refl 256
  · intro t tp h'
    cases h'
  · intro t tp h'
    cases h'
  · intro t tp h'
    cases h'
  · intro a b t h'
    cases h'
  · rfl

/-! ### `keysD` and the vocabulary-bound machinery -/

theorem keysD_cons (k : Nat) (v : TokenPair) (rest : List (Nat × TokenPair)) :
    keysD ((k, v) :: rest) = k :: keysD rest := rfl

theorem mem_keysD (d : List (Nat × TokenPair)) (t : Nat) (h : t ∈ keysD d) :
    ∃ tp, lookupD d t = some tp := by
  induction d with
  | nil => cases h
  | cons kv rest ih =>
    obtain ⟨k, v⟩ := kv
    rw [keysD_cons] at h
    rcases List.mem_cons.mp h with rfl | h
    · exact ⟨v, by rw [lookupD_cons, if_pos rfl]⟩
    · by_cases hk : k = t
      · exact ⟨v, by rw [lookupD_cons, if_pos hk]⟩
      · obtain ⟨tp, htp⟩ := ih h
        exact ⟨tp, by rw [lookupD_cons, if_neg hk]; exact htp⟩

theorem trainLoop_keys_lt :
    ∀ (fuel : Nat) (st st' : TState), Inv st →
      st.mint_token < st.encoding_vocab_size →
      trainLoop fuel st = .ok st' → KeysLT st'.decoding_map st.encoding_vocab_size
  | 0, _, _, _, _, h => by cases h
  | fuel + 1, st, st', hinv, hmv, h => by
    simp only [trainLoop] at h
    cases hrun : swap_top st with
    | error e =>
      rw [hrun] at h
      cases h
    | ok res =>
      obtain ⟨st₁, done⟩ := res
      rw [hrun] at h
      obtain ⟨tp, htop, hcase⟩ := swap_top_cases st st₁ done hrun
      rcases hcase with ⟨hf1, rfl, rfl⟩ | ⟨hf, rfl, mx, hmx, hdone⟩
      · simp only [Except.ok.injEq] at h
        subst h
        intro t tp' hl
        exact lt_trans (hinv.dkeys_lt t tp' hl) hmv
      · have hmx' := mergedState_listMax st tp hinv.tc htop hinv.toks_lt
        rw [hmx'] at hmx
        rw [Option.some.injEq] at hmx
        subst hmx
        cases done with
        | true =>
          simp only [Except.ok.injEq] at h
          subst h
          have hP : st.mint_token + 1 = st.encoding_vocab_size :=
            of_decide_eq_true hdone.symm
          intro t tp' hl
          rw [mergedState_dmap, lookupD_insertD] at hl
          by_cases hkt : st.mint_token = t
          · omega
          · rw [if_neg hkt] at hl
            have := hinv.dkeys_lt t tp' hl
            omega
        | false =>
          have hP : ¬(st.mint_token + 1 = st.encoding_vocab_size) :=
            of_decide_eq_false hdone.symm
          have hrec := trainLoop_keys_lt fuel (mergedState st tp) st'
            (Inv_mergedState st tp hinv htop)
            (by rw [mergedState_mint, mergedState_vocab]; omega) h
          rw [mergedState_vocab] at hrec
          exact hrec

/-! ### `decodePass` / `decodeLoop` facts -/

theorem decodePass_nil (d : List (Nat × TokenPair)) : decodePass d [] = ([], true) := rfl

theorem decodePass_cons_some (d : List (Nat × TokenPair)) (t : Nat) (rest : List Nat)
    (tp : TokenPair) (h : lookupD d t = some tp) :
    decodePass d (t :: rest) =
      (tp.first_token :: tp.second_token :: (decodePass d rest).1, false) := by
  simp [decodePass, h]

theorem decodePass_cons_none (d : List (Nat × TokenPair)) (t : Nat) (rest : List Nat)
    (h : lookupD d t = none) :
    decodePass d (t :: rest) =
      (t :: (decodePass d rest).1, (decodePass d rest).2) := by
  simp [decodePass, h]

theorem decodePass_true_none (d : List (Nat × TokenPair)) :
    ∀ (ts : List Nat), (decodePass d ts).2 = true → ∀ t ∈ ts, lookupD d t = none
  | [], _, t, ht => absurd ht (List.not_mem_nil t)
  | t₀ :: rest, h, t, ht => by
    cases hl : lookupD d t₀ with
    | some tp =>
      rw [decodePass_cons_some d t₀ rest tp hl] at h
      cases h
    | none =>
      rw [decodePass_cons_none d t₀ rest hl] at h
      rcases List.mem_cons.mp ht with rfl | ht
      · exact hl
      · exact decodePass_true_none d rest h t ht

theorem decodePass_none_all (d : List (Nat × TokenPair)) :
    ∀ (ts : List Nat), (∀ t ∈ ts, lookupD d t = none) → decodePass d ts = (ts, true)
  | [], _ => rfl
  | t₀ :: rest, h => by
    rw [decodePass_cons_none d t₀ rest (h t₀ (List.mem_cons_self _ _)),
      decodePass_none_all d rest (fun t ht => h t (List.mem_cons_of_mem _ ht))]

theorem decodeLoop_fix (d : List (Nat × TokenPair)) :
    ∀ (fuel : Nat) (ts r : List Nat), decodeLoop d fuel ts = some r →
      decodePass d r = (r, true)
  | 0, _, _, h => by cases h
  | fuel + 1, ts, r, h => by
    simp only [decodeLoop] at h
    by_cases hdone : (decodePass d ts).2 = true
    · rw [if_pos hdone] at h
      rw [Option.some.injEq] at h
      have hall := decodePass_true_none d ts hdone
      have heq := decodePass_none_all d ts hall
      rw [heq] at h
      subst h
      exact decodePass_none_all d ts hall
    · rw [if_neg hdone] at h
      exact decodeLoop_fix d fuel _ r h

theorem decodeLoop_none (d : List (Nat × TokenPair)) (fuel : Nat) (ts r : List Nat)
    (h : decodeLoop d fuel ts = some r) : ∀ t ∈ r, lookupD d t = none := by
  have hfix := decodeLoop_fix d fuel ts r h
  intro t ht
  apply decodePass_true_none d r _ t ht
  rw [hfix]

theorem decodeLoop_unique (d : List (Nat × TokenPair)) :
    ∀ (fuel : Nat) (ts r : List Nat), decodeLoop d fuel ts = some r →
      ∀ (fuel₂ : Nat) (r₂ : List Nat), decodeLoop d fuel₂ ts = some r₂ → r = r₂
  | 0, _, _, h => by cases h
  | fuel + 1, ts, r, h => by
    intro fuel₂ r₂ h₂
    match fuel₂ with
    | 0 => cases h₂
    | fuel₂ + 1 =>
      simp only [decodeLoop] at h h₂
      by_cases hdone : (decodePass d ts).2 = true
      · rw [if_pos hdone] at h h₂
        rw [Option.some.injEq] at h h₂
        rw [← h, ← h₂]
      · rw [if_neg hdone] at h h₂
        exact decodeLoop_unique d fuel _ r h fuel₂ r₂ h₂

theorem weight3_nil : weight3 [] = 0 := rfl

theorem weight3_cons (t : Nat) (rest : List Nat) :
    weight3 (t :: rest) = 3 ^ t + weight3 rest := rfl

theorem three_pow_add_lt (a b t : Nat) (ha : a < t) (hb : b < t) :
    3 ^ a + 3 ^ b < 3 ^ t := by
  obtain ⟨s, rfl⟩ : ∃ s, t = s + 1 := ⟨t - 1, by omega⟩
  have h1 : 3 ^ a ≤ 3 ^ s := Nat.pow_le_pow_right (by omega) (by omega)
  have h2 : 3 ^ b ≤ 3 ^ s := Nat.pow_le_pow_right (by omega) (by omega)
  have h3 : 0 < 3 ^ s := Nat.pos_pow_of_pos s (by omega)
  rw [pow_succ]
  omega

theorem decodePass_weight_le (d : List (Nat × TokenPair)) (hg : Grounded d) :
    ∀ (ts : List Nat), weight3 (decodePass d ts).1 ≤ weight3 ts
  | [] => le_refl _
  | t :: rest => by
    cases hl : lookupD d t with
    | some tp =>
      obtain ⟨ha, hb⟩ := hg t tp hl
      rw [decodePass_cons_some d t rest tp hl]
      simp only [weight3_cons]
      have hpow := three_pow_add_lt tp.first_token tp.second_token t ha hb
      have hrest := decodePass_weight_le d hg rest
      omega
    | none =>
      rw [decodePass_cons_none d t rest hl]
      simp only [weight3_cons]
      have hrest := decodePass_weight_le d hg rest
      omega

theorem decodePass_weight_lt (d : List (Nat × TokenPair)) (hg : Grounded d) :
    ∀ (ts : List Nat), (decodePass d ts).2 = false →
      weight3 (decodePass d ts).1 < weight3 ts
  | [], h => by
    rw [decodePass_nil] at h
    cases h
  | t :: rest, h => by
    cases hl : lookupD d t with
    | some tp =>
      obtain ⟨ha, hb⟩ := hg t tp hl
      rw [decodePass_cons_some d t rest tp hl]
      simp only [weight3_cons]
      have hpow := three_pow_add_lt tp.first_token tp.second_token t ha hb
      have hrest := decodePass_weight_le d hg rest
      omega
    | none =>
      rw [decodePass_cons_none d t rest hl] at h ⊢
      simp only [weight3_cons]
      have hrest := decodePass_weight_lt d hg rest h
      omega

theorem decodeLoop_isSome (d : List (Nat × TokenPair)) (hg : Grounded d) :
    ∀ (fuel : Nat) (ts : List Nat), weight3 ts < fuel →
      ∃ r, decodeLoop d fuel ts = some r
  | 0, ts, h => absurd h (by omega)
  | fuel + 1, ts, h => by
    simp only [decodeLoop]
    by_cases hdone : (decodePass d ts).2 = true
    · rw [if_pos hdone]
      exact ⟨_, rfl⟩
    · rw [if_neg hdone]
      have hf : (decodePass d ts).2 = false := by
        cases hv : (decodePass d ts).2
        · rfl
        · exact absurd hv hdone
      have hlt := decodePass_weight_lt d hg ts hf
      exact decodeLoop_isSome d hg fuel _ (by omega)

/-! ### `encodePass` / `encodeLoop` facts -/

theorem encodePass_nil (e : List ((Nat × Nat) × Nat)) : encodePass e [] = ([], true) := rfl

theorem encodePass_single (e : List ((Nat × Nat) × Nat)) (x : Nat) :
    encodePass e [x] = ([x], true) := rfl

theorem encodePass_cons₂_merge (e : List ((Nat × Nat) × Nat)) (x y : Nat)
    (rest : List Nat) (t : Nat) (h : lookupE e (x, y) = some t) (ht : t ≠ 0) :
    encodePass e (x :: y :: rest) = (t :: (encodePass e rest).1, false) := by
  simp [encodePass, h, ht]

theorem encodePass_cons₂_zero (e : List ((Nat × Nat) × Nat)) (x y : Nat)
    (rest : List Nat) (h : lookupE e (x, y) = some 0) :
    encodePass e (x :: y :: rest) =
      (x :: (encodePass e (y :: rest)).1, (encodePass e (y :: rest)).2) := by
  simp [encodePass, h]

theorem encodePass_cons₂_none (e : List ((Nat × Nat) × Nat)) (x y : Nat)
    (rest : List Nat) (h : lookupE e (x, y) = none) :
    encodePass e (x :: y :: rest) =
      (x :: (encodePass e (y :: rest)).1, (encodePass e (y :: rest)).2) := by
  simp [encodePass, h]

theorem encodePass_true_eq (e : List ((Nat × Nat) × Nat)) :
    ∀ (ts : List Nat), (encodePass e ts).2 = true → (encodePass e ts).1 = ts
  | [], _ => rfl
  | [x], _ => rfl
  | x :: y :: rest, h => by
    cases hl : lookupE e (x, y) with
    | some t =>
      by_cases ht : t = 0
      · subst ht
        rw [encodePass_cons₂_zero e x y rest hl] at h ⊢
        rw [encodePass_true_eq e (y :: rest) h]
      · rw [encodePass_cons₂_merge e x y rest t hl ht] at h
        cases h
    | none =>
      rw [encodePass_cons₂_none e x y rest hl] at h ⊢
      rw [encodePass_true_eq e (y :: rest) h]

theorem encodePass_len_le (e : List ((Nat × Nat) × Nat)) :
    ∀ (ts : List Nat), (encodePass e ts).1.length ≤ ts.length
  | [] => le_refl _
  | [_] => le_refl _
  | x :: y :: rest => by
    cases hl : lookupE e (x, y) with
    | some t =>
      by_cases ht : t = 0
      · subst ht
        rw [encodePass_cons₂_zero e x y rest hl]
        have := encodePass_len_le e (y :: rest)
        simp only [List.length_cons] at *
        omega
      · rw [encodePass_cons₂_merge e x y rest t hl ht]
        have := encodePass_len_le e rest
        simp only [List.length_cons] at *
        omega
    | none =>
      rw [encodePass_cons₂_none e x y rest hl]
      have := encodePass_len_le e (y :: rest)
      simp only [List.length_cons] at *
      omega

theorem encodePass_len_lt (e : List ((Nat × Nat) × Nat)) :
    ∀ (ts : List Nat), (encodePass e ts).2 = false →
      (encodePass e ts).1.length < ts.length
  | [], h => by
    rw [encodePass_nil] at h
    cases h
  | [x], h => by
    rw [encodePass_single] at h
    cases h
  | x :: y :: rest, h => by
    cases hl : lookupE e (x, y) with
    | some t =>
      by_cases ht : t = 0
      · subst ht
        rw [encodePass_cons₂_zero e x y rest hl] at h ⊢
        have := encodePass_len_lt e (y :: rest) h
        simp only [List.length_cons] at *
        omega
      · rw [encodePass_cons₂_merge e x y rest t hl ht]
        have := encodePass_len_le e rest
        simp only [List.length_cons] at *
        omega
    | none =>
      rw [encodePass_cons₂_none e x y rest hl] at h ⊢
      have := encodePass_len_lt e (y :: rest) h
      simp only [List.length_cons] at *
      omega

theorem encodeLoop_isSome (e : List ((Nat × Nat) × Nat)) :
    ∀ (fuel : Nat) (ts : List Nat), ts.length < fuel →
      ∃ out, encodeLoop e fuel ts = some out
  | 0, ts, h => absurd h (by omega)
  | fuel + 1, ts, h => by
    simp only [encodeLoop]
    by_cases hdone : (encodePass e ts).2 = true
    · rw [if_pos hdone]
      exact ⟨_, rfl⟩
    · rw [if_neg hdone]
      have hf : (encodePass e ts).2 = false := by
        cases hv : (encodePass e ts).2
        · rfl
        · exact absurd hv hdone
      have hlt := encodePass_len_lt e ts hf
      exact encodeLoop_isSome e fuel _ (by omega)

theorem encodeLoop_fix (e : List ((Nat × Nat) × Nat)) :
    ∀ (fuel : Nat) (ts out : List Nat), encodeLoop e fuel ts = some out →
      encodePass e out = (out, true)
  | 0, _, _, h => by cases h
  | fuel + 1, ts, out, h => by
    simp only [encodeLoop] at h
    by_cases hdone : (encodePass e ts).2 = true
    · rw [if_pos hdone] at h
      rw [Option.some.injEq] at h
      have heq := encodePass_true_eq e ts hdone
      rw [heq] at h
      subst h
      rw [Prod.ext_iff]
      exact ⟨heq, hdone⟩
    · rw [if_neg hdone] at h
      exact encodeLoop_fix e fuel _ out h

theorem encodePass_true_nokey (e : List ((Nat × Nat) × Nat))
    (hnz : ∀ p t, lookupE e p = some t → t ≠ 0) :
    ∀ (ts : List Nat), (encodePass e ts).2 = true →
      ∀ p ∈ adjPairs ts, lookupE e p = none
  | [], _, p, hp => absurd hp (by simp [adjPairs])
  | [x], _, p, hp => absurd hp (by simp [adjPairs])
  | x :: y :: rest, h, p, hp => by
    cases hl : lookupE e (x, y) with
    | some t =>
      exact absurd (by rw [encodePass_cons₂_merge e x y rest t hl (hnz _ t hl)] at h; exact h)
        (by simp)
    | none =>
      rw [encodePass_cons₂_none e x y rest hl] at h
      rw [adjPairs_cons₂] at hp
      rcases List.mem_cons.mp hp with rfl | hp
      · exact hl
      · exact encodePass_true_nokey e hnz (y :: rest) h p hp

/-! ### Full expansion: `expandSym` / `expandTok` / `expandAll` -/

theorem expandSym_succ_some (d : List (Nat × TokenPair)) (f t : Nat) (tp : TokenPair)
    (h : lookupD d t = some tp) :
    expandSym d (f + 1) t =
      expandSym d f tp.first_token ++ expandSym d f tp.second_token := by
  simp [expandSym, h]

theorem expandSym_succ_none (d : List (Nat × TokenPair)) (f t : Nat)
    (h : lookupD d t = none) : expandSym d (f + 1) t = [t] := by
  simp [expandSym, h]

theorem expandSym_of_none (d : List (Nat × TokenPair)) (t : Nat)
    (h : lookupD d t = none) : ∀ f, expandSym d f t = [t]
  | 0 => rfl
  | f + 1 => expandSym_succ_none d f t h

theorem expandTok_of_none (d : List (Nat × TokenPair)) (t : Nat)
    (h : lookupD d t = none) : expandTok d t = [t] :=
  expandSym_of_none d t h t

theorem expandSym_stable (d : List (Nat × TokenPair)) (hg : Grounded d) :
    ∀ (t f : Nat), t ≤ f → expandSym d f t = expandTok d t := by
  intro t
  induction t using Nat.strong_induction_on with
  | _ t ih =>
    intro f hf
    cases hl : lookupD d t with
    | none => rw [expandSym_of_none d t hl f, expandTok, expandSym_of_none d t hl t]
    | some tp =>
      obtain ⟨ha, hb⟩ := hg t tp hl
      obtain ⟨s, rfl⟩ : ∃ s, t = s + 1 := ⟨t - 1, by omega⟩
      obtain ⟨g, rfl⟩ : ∃ g, f = g + 1 := ⟨f - 1, by omega⟩
      rw [expandSym_succ_some d g _ tp hl, expandTok, expandSym_succ_some d s _ tp hl]
      rw [ih tp.first_token (by omega) g (by omega),
        ih tp.second_token (by omega) g (by omega),
        ih tp.first_token (by omega) s (by omega),
        ih tp.second_token (by omega) s (by omega)]

theorem expandTok_eq (d : List (Nat × TokenPair)) (hg : Grounded d) (t : Nat)
    (tp : TokenPair) (h : lookupD d t = some tp) :
    expandTok d t = expandTok d tp.first_token ++ expandTok d tp.second_token := by
  obtain ⟨ha, hb⟩ := hg t tp h
  obtain ⟨s, rfl⟩ : ∃ s, t = s + 1 := ⟨t - 1, by omega⟩
  rw [expandTok, expandSym_succ_some d s _ tp h,
    expandSym_stable d hg tp.first_token s (by omega),
    expandSym_stable d hg tp.second_token s (by omega)]

theorem expandAll_nil (d : List (Nat × TokenPair)) : expandAll d [] = [] := rfl

theorem expandAll_cons (d : List (Nat × TokenPair)) (t : Nat) (rest : List Nat) :
    expandAll d (t :: rest) = expandTok d t ++ expandAll d rest := rfl

theorem expandAll_of_all_none (d : List (Nat × TokenPair)) :
    ∀ (ts : List Nat), (∀ t ∈ ts, lookupD d t = none) → expandAll d ts = ts
  | [], _ => rfl
  | t :: rest, h => by
    rw [expandAll_cons, expandTok_of_none d t (h t (List.mem_cons_self _ _)),
      expandAll_of_all_none d rest (fun x hx => h x (List.mem_cons_of_mem _ hx))]
    rfl

theorem expandAll_raw (d : List (Nat × TokenPair)) (hge : KeysGE d)
    (ts : List Nat) (h : ∀ x ∈ ts, x < 256) : expandAll d ts = ts := by
  apply expandAll_of_all_none
  intro t ht
  cases hl : lookupD d t with
  | none => rfl
  | some tp =>
    have h1 := hge t tp hl
    have h2 := h t ht
    omega

theorem decodePass_expand (d : List (Nat × TokenPair)) (hg : Grounded d) :
    ∀ (ts : List Nat), expandAll d (decodePass d ts).1 = expandAll d ts
  | [] => rfl
  | t :: rest => by
    cases hl : lookupD d t with
    | some tp =>
      rw [decodePass_cons_some d t rest tp hl, expandAll_cons, expandAll_cons,
        expandAll_cons, decodePass_expand d hg rest, expandTok_eq d hg t tp hl,
        List.append_assoc]
    | none =>
      rw [decodePass_cons_none d t rest hl, expandAll_cons, expandAll_cons,
        decodePass_expand d hg rest]

theorem decodeLoop_expand (d : List (Nat × TokenPair)) (hg : Grounded d) :
    ∀ (fuel : Nat) (ts r : List Nat), decodeLoop d fuel ts = some r →
      expandAll d r = expandAll d ts
  | 0, _, _, h => by cases h
  | fuel + 1, ts, r, h => by
    simp only [decodeLoop] at h
    by_cases hdone : (decodePass d ts).2 = true
    · rw [if_pos hdone] at h
      rw [Option.some.injEq] at h
      subst h
      exact decodePass_expand d hg ts
    · rw [if_neg hdone] at h
      exact (decodeLoop_expand d hg fuel _ r h).trans (decodePass_expand d hg ts)

theorem encodePass_expand (e : List ((Nat × Nat) × Nat)) (d : List (Nat × TokenPair))
    (hg : Grounded d) (hcons : EDConsistent e d) :
    ∀ (ts : List Nat), expandAll d (encodePass e ts).1 = expandAll d ts
  | [] => rfl
  | [x] => rfl
  | x :: y :: rest => by
    cases hl : lookupE e (x, y) with
    | some t =>
      by_cases ht : t = 0
      · subst ht
        rw [encodePass_cons₂_zero e x y rest hl, expandAll_cons, expandAll_cons,
          encodePass_expand e d hg hcons (y :: rest)]
      · obtain ⟨tp, hld, h1, h2⟩ := hcons x y t hl
        rw [encodePass_cons₂_merge e x y rest t hl ht, expandAll_cons,
          expandAll_cons, expandAll_cons, encodePass_expand e d hg hcons rest,
          expandTok_eq d hg t tp hld, h1, h2, List.append_assoc]
    | none =>
      rw [encodePass_cons₂_none e x y rest hl, expandAll_cons, expandAll_cons,
        encodePass_expand e d hg hcons (y :: rest)]

theorem encodeLoop_expand (e : List ((Nat × Nat) × Nat)) (d : List (Nat × TokenPair))
    (hg : Grounded d) (hcons : EDConsistent e d) :
    ∀ (fuel : Nat) (ts out : List Nat), encodeLoop e fuel ts = some out →
      expandAll d out = expandAll d ts
  | 0, _, _, h => by cases h
  | fuel + 1, ts, out, h => by
    simp only [encodeLoop] at h
    by_cases hdone : (encodePass e ts).2 = true
    · rw [if_pos hdone] at h
      rw [Option.some.injEq] at h
      subst h
      exact encodePass_expand e d hg hcons ts
    · rw [if_neg hdone] at h
      exact (encodeLoop_expand e d hg hcons fuel _ out h).trans
        (encodePass_expand e d hg hcons ts)

/-! ### Training ignores the metadata fields -/

theorem get_most_common_rn (n : String) (p : Option String) (st : TState) :
    get_most_common (rn n p st) = get_most_common st := rfl

theorem mergedState_rn (n : String) (p : Option String) (st : TState) (tp : TokenPair) :
    mergedState (rn n p st) tp = rn n p (mergedState st tp) := rfl

theorem swap_top_rn (n : String) (p : Option String) (st : TState) :
    swap_top (rn n p st) = (swap_top st).map (fun x => (rn n p x.1, x.2)) := by
  cases htop : get_most_common st with
  | none =>
    rw [swap_top_eq_err (rn n p st) ((get_most_common_rn n p st).trans htop),
      swap_top_eq_err st htop]
    rfl
  | some tp =>
    by_cases hf : tp.frequency = 1
    · rw [swap_top_eq_sat (rn n p st) tp ((get_most_common_rn n p st).trans htop) hf,
        swap_top_eq_sat st tp htop hf]
      rfl
    · cases hmx : listMax (mergedState st tp).encoded_tokens with
      | none =>
        rw [swap_top_eq_merge_err (rn n p st) tp
            ((get_most_common_rn n p st).trans htop) hf hmx,
          swap_top_eq_merge_err st tp htop hf hmx]
        rfl
      | some mx =>
        rw [swap_top_eq_merge (rn n p st) tp mx
            ((get_most_common_rn n p st).trans htop) hf hmx,
          swap_top_eq_merge st tp mx htop hf hmx]
        rfl

theorem trainLoop_rn (n : String) (p : Option String) :
    ∀ (fuel : Nat) (st : TState),
      trainLoop fuel (rn n p st) = (trainLoop fuel st).map (rn n p)
  | 0, _ => rfl
  | fuel + 1, st => by
    simp only [trainLoop]
    rw [swap_top_rn]
    cases hrun : swap_top st with
    | error e => rfl
    | ok res =>
      obtain ⟨st₁, done⟩ := res
      simp only [Except.map]
      cases done with
      | true => rfl
      | false => exact trainLoop_rn n p fuel st₁

/-! ### Claim theorems -/

theorem exists_cons₂_of_len (ts : List Nat) (h : 2 ≤ ts.length) :
    ∃ x y rest, ts = x :: y :: rest := by
  match ts, h with
  | x :: y :: rest, _ => exact ⟨x, y, rest, rfl⟩

/-- Claim C1: for every raw input sequence and every MergeTable produced by
running training to completion on some (raw) input, decoding the result of
encoding that input with that table returns the original input:
`decode(encode(input)) == input`. -/
theorem c1_round_trip (toks : List Nat) (v : Nat) (n : String) (p : Option String)
    (fuel : Nat) (st' : TState)
    (htoks : ∀ x ∈ toks, x < 256)
    (hrun : trainLoop fuel (initState toks v n p) = .ok st')
    (input : List Nat) (hinput : ∀ x ∈ input, x < 256) :
    ∃ f₁ enc f₂, encodeLoop st'.encoding_map f₁ input = some enc ∧
      decodeLoop st'.decoding_map f₂ enc = some input := by
  have hinv := trainLoop_inv fuel _ st' (initState_inv toks v n p htoks) hrun
  obtain ⟨enc, henc⟩ :=
    encodeLoop_isSome st'.encoding_map (input.length + 1) input (by omega)
  obtain ⟨r, hr⟩ :=
    decodeLoop_isSome st'.decoding_map hinv.grounded (weight3 enc + 1) enc (by omega)
  have hexp1 : expandAll st'.decoding_map enc = expandAll st'.decoding_map input :=
    encodeLoop_expand st'.encoding_map st'.decoding_map hinv.grounded hinv.consistent
      _ input enc henc
  have hexp2 : expandAll st'.decoding_map r = expandAll st'.decoding_map enc :=
    decodeLoop_expand st'.decoding_map hinv.grounded _ enc r hr
  have hraw : expandAll st'.decoding_map input = input :=
    expandAll_raw _ hinv.dkeys_ge input hinput
  have hnone := decodeLoop_none st'.decoding_map _ enc r hr
  have hrfix : expandAll st'.decoding_map r = r := expandAll_of_all_none _ r hnone
  have hri : r = input := by rw [← hrfix, hexp2, hexp1, hraw]
  refine ⟨input.length + 1, enc, weight3 enc + 1, henc, ?_⟩
  rw [← hri]
  exact hr

theorem c1_round_trip_witness :
    ∃ f₁ enc f₂,
      encodeLoop [((97, 98), 256)] f₁ [97, 98] = some enc ∧
      decodeLoop [(256, ⟨97, 98, 2⟩)] f₂ enc = some [97, 98] :=
  c1_round_trip [97, 98, 97, 98, 99] 257 "t" none 5
    ⟨"t", none, 257, [97, 98, 97, 98, 99], [256, 256, 99], 257,
      [⟨256, 256, 1⟩, ⟨256, 99, 1⟩], [(256, ⟨97, 98, 2⟩)], [((97, 98), 256)]⟩
    (by decide) rfl [97, 98] (by decide)

/-- Claim C2: on a stream of at least 2 symbols (with `tcounts` as computed by
`count` over that stream, as the class maintains it), `get_most_common`
returns an adjacent pair of the stream whose count is highest, and among the
pairs of maximal count it is the one whose first occurrence in the stream is
earliest (first-seen-wins). -/
theorem c2_most_frequent (st : TState)
    (htc : st.tcounts = count st.encoded_tokens)
    (hlen : 2 ≤ st.encoded_tokens.length) :
    ∃ tp, get_most_common st = some tp ∧
      tp.key ∈ adjPairs st.encoded_tokens ∧
      tp.frequency = countOcc (adjPairs st.encoded_tokens) tp.key ∧
      (∀ p ∈ adjPairs st.encoded_tokens,
        countOcc (adjPairs st.encoded_tokens) p ≤ tp.frequency) ∧
      (∀ p ∈ adjPairs st.encoded_tokens,
        countOcc (adjPairs st.encoded_tokens) p = tp.frequency →
          firstIdx (adjPairs st.encoded_tokens) tp.key ≤
            firstIdx (adjPairs st.encoded_tokens) p) := by
  obtain ⟨x, y, rest, hts⟩ := exists_cons₂_of_len st.encoded_tokens hlen
  have hne : count st.encoded_tokens ≠ [] := by
    rw [hts]
    exact count_ne_nil x y rest
  have hne' : st.tcounts ≠ [] := by rw [htc]; exact hne
  obtain ⟨tp, htop⟩ := pymax_isSome st.tcounts hne'
  have htop' : pymax (count st.encoded_tokens) = some tp := by rw [← htc]; exact htop
  obtain ⟨l₁, l₂, hdecomp, hpre, hpost⟩ := pymax_spec _ tp htop'
  have hmem : tp ∈ count st.encoded_tokens := by
    rw [hdecomp]
    simp
  obtain ⟨hkey, hfreq⟩ := count_elim _ tp hmem
  refine ⟨tp, htop, hkey, hfreq, ?_, ?_⟩
  · intro p hp
    have hep := count_intro st.encoded_tokens p hp
    rw [hdecomp] at hep
    rcases List.mem_append.mp hep with h1 | h2
    · have := hpre _ h1
      simp only at this
      omega
    · rcases List.mem_cons.mp h2 with heq | h2
      · rw [← heq]
      · have := hpost _ h2
        simp only at this
        omega
  · intro p hp hfeq
    have hep := count_intro st.encoded_tokens p hp
    rw [hdecomp] at hep
    obtain ⟨m₁, k, m₂, hseen, hm₁, hFk, hm₂⟩ :=
      map_decomp (fun p => (⟨p.1, p.2, countOcc (adjPairs st.encoded_tokens) p⟩ : TokenPair))
        (seenKeys (adjPairs st.encoded_tokens)) l₁ tp l₂
        ((count_char st.encoded_tokens).symm.trans hdecomp)
    have hkeyk : tp.key = k := by
      rw [← hFk]
      exact Prod.mk.eta
    rcases List.mem_append.mp hep with h1 | h2
    · have := hpre _ h1
      simp only at this
      omega
    · rcases List.mem_cons.mp h2 with heq | h2
      · have hkp : tp.key = p := by
          rw [← heq]
          exact Prod.mk.eta
        rw [hkp]
      · rw [← hm₂] at h2
        obtain ⟨p', hp', hF⟩ := List.mem_map.mp h2
        have hpp : p' = p := by
          have h1 := congrArg TokenPair.first_token hF
          have h2' := congrArg TokenPair.second_token hF
          simp only at h1 h2'
          exact Prod.ext h1 h2'
        subst hpp
        have hord := seenKeys_ordered (adjPairs st.encoded_tokens)
        rw [hseen] at hord
        have h3 := (List.pairwise_append.mp hord).2.1
        have h4 := (List.pairwise_cons.mp h3).1 p' hp'
        rw [hkeyk]
        omega

theorem c2_most_frequent_witness :
    ∃ tp, get_most_common (initState [97, 98, 97, 98, 99] 300 "t" none) = some tp ∧
      tp.key ∈ adjPairs [97, 98, 97, 98, 99] ∧
      tp.frequency = countOcc (adjPairs [97, 98, 97, 98, 99]) tp.key ∧
      (∀ p ∈ adjPairs [97, 98, 97, 98, 99],
        countOcc (adjPairs [97, 98, 97, 98, 99]) p ≤ tp.frequency) ∧
      (∀ p ∈ adjPairs [97, 98, 97, 98, 99],
        countOcc (adjPairs [97, 98, 97, 98, 99]) p = tp.frequency →
          firstIdx (adjPairs [97, 98, 97, 98, 99]) tp.key ≤
            firstIdx (adjPairs [97, 98, 97, 98, 99]) p) :=
  c2_most_frequent (initState [97, 98, 97, 98, 99] 300 "t" none) rfl (by decide)

/-- Claim C3 (code behavior at the failing input): on an input with fewer than
2 symbols, a single encode pass and a single decode pass are no-ops, but
`train` is NOT a no-op: its call to `max()` over the empty pair-count dict
raises `ValueError` (modelled as `.error .valueError`), contradicting the
claim that training completes as a no-op. -/
theorem c3_short_input_eval (v : Nat) (n : String) (p : Option String) (t f : Nat)
    (e : List ((Nat × Nat) × Nat)) :
    trainLoop (f + 1) (initState [] v n p) = .error .valueError ∧
    trainLoop (f + 1) (initState [t] v n p) = .error .valueError ∧
    encodeLoop e (f + 1) [t] = some [t] ∧
    encodeLoop e (f + 1) ([] : List Nat) = some [] ∧
    decodeLoop [] (f + 1) [t] = some [t] ∧
    decodeLoop [] (f + 1) ([] : List Nat) = some [] := by
  refine ⟨?_, ?_, ?_, ?_, ?_, ?_⟩
  · simp only [trainLoop]
    rw [swap_top_eq_err (initState [] v n p) rfl]
  · simp only [trainLoop]
    rw [swap_top_eq_err (initState [t] v n p) rfl]
  · simp [encodeLoop, encodePass_single]
  · simp [encodeLoop, encodePass_nil]
  · simp [decodeLoop, decodePass_cons_none [] t [] rfl, decodePass_nil]
  · simp [decodeLoop, decodePass_nil]

/-- Claim C4 counterexample: with target vocabulary size 256 (≤ 256) and
input `"aaaa"`, training does NOT terminate without minting: it mints symbol
256, fills both maps, and rewrites the stream. -/
theorem c4_counterexample :
    (trainLoop 10 (initState [97, 97, 97, 97] 256 "t" none)).map
        (fun s => (s.encoding_map, s.decoding_map, s.encoded_tokens)) =
      .ok ([((97, 97), 256)], [(256, ⟨97, 97, 3⟩)], [256, 256]) ∧
    ([((97, 97), 256)] : List ((Nat × Nat) × Nat)) ≠ [] := by
  exact ⟨rfl, by decide⟩

/-- Claim C4 (amended): when the configured target vocabulary size is at most
256, the vocabulary stop condition `max(stream) + 1 == vocab_size` can never
fire (the minted symbol 256 makes the maximum at least 256), so `swap_top`
reports DONE only through saturation: the most frequent pair has frequency 1
and the state is unchanged.  Training may still mint symbols before that. -/
theorem c4_amended (st st' : TState)
    (htc : st.tcounts = count st.encoded_tokens)
    (hmint : 256 ≤ st.mint_token)
    (htoks : ∀ x ∈ st.encoded_tokens, x < st.mint_token)
    (hv : st.encoding_vocab_size ≤ 256)
    (h : swap_top st = .ok (st', true)) :
    ∃ tp, get_most_common st = some tp ∧ tp.frequency = 1 ∧ st' = st := by
  obtain ⟨tp, htop, hcase⟩ := swap_top_cases st st' true h
  rcases hcase with ⟨hf, heq, -⟩ | ⟨hf, heq, mx, hmx, hdone⟩
  · exact ⟨tp, htop, hf, heq⟩
  · have hmx' := mergedState_listMax st tp htc htop htoks
    rw [hmx'] at hmx
    rw [Option.some.injEq] at hmx
    subst hmx
    have hP : st.mint_token + 1 = st.encoding_vocab_size := of_decide_eq_true hdone.symm
    omega

theorem c4_amended_witness :
    ∃ tp, get_most_common (initState [97, 98] 200 "t" none) = some tp ∧
      tp.frequency = 1 ∧
      initState [97, 98] 200 "t" none = initState [97, 98] 200 "t" none :=
  c4_amended (initState [97, 98] 200 "t" none) (initState [97, 98] 200 "t" none)
    rfl (by decide) (by decide) (by decide) rfl

/-- Claim C5: when the selected top pair has count greater than 1, one
training step rewrites the stream by the single left-to-right greedy
`swapPass` (non-overlapping leftmost occurrences, scanning resuming two
positions after a match, unmatched symbols preserved in order — witnessed by
the one-step expansion inverse and by the "aaa" behavior), and records the
merge in both maps. -/
theorem c5_swap_step (st : TState) (tp : TokenPair)
    (htc : st.tcounts = count st.encoded_tokens)
    (htop : get_most_common st = some tp)
    (hf : 1 < tp.frequency) :
    ∃ done, swap_top st = .ok (mergedState st tp, done) ∧
      (mergedState st tp).encoded_tokens =
        swapPass tp.first_token tp.second_token st.mint_token st.encoded_tokens ∧
      lookupD (mergedState st tp).decoding_map st.mint_token = some tp ∧
      lookupE (mergedState st tp).encoding_map (tp.first_token, tp.second_token) =
        some st.mint_token ∧
      ((∀ x ∈ st.encoded_tokens, x ≠ st.mint_token) →
        expandMint st.mint_token tp.first_token tp.second_token
          (mergedState st tp).encoded_tokens = st.encoded_tokens) ∧
      (∀ a t : Nat, swapPass a a t [a, a, a] = [t, a]) := by
  have hne : tp.frequency ≠ 1 := by omega
  obtain ⟨hmem, hkey, hfreq, hpos⟩ := top_pair_facts st tp htc htop
  have hts : st.encoded_tokens ≠ [] := by
    intro hnil
    rw [hnil] at hkey
    simp [adjPairs] at hkey
  have hnn : (mergedState st tp).encoded_tokens ≠ [] := by
    rw [mergedState_tokens]
    exact swapPass_ne_nil _ _ _ _ hts
  obtain ⟨mx, hmx⟩ := listMax_isSome _ hnn
  refine ⟨decide (mx + 1 = st.encoding_vocab_size),
    swap_top_eq_merge st tp mx htop hne hmx, rfl, ?_, ?_, ?_, ?_⟩
  · rw [mergedState_dmap, lookupD_insertD, if_pos rfl]
  · rw [mergedState_emap, lookupE_insertE, if_pos rfl]
  · intro hnot
    rw [mergedState_tokens]
    exact swapPass_expandMint _ _ _ _ hnot
  · intro a t
    rw [swapPass_cons₂, if_pos ⟨rfl, rfl⟩, swapPass_single]

theorem c5_swap_step_witness :
    ∃ done, swap_top (initState [97, 98, 97, 98, 99] 300 "t" none) =
        .ok (mergedState (initState [97, 98, 97, 98, 99] 300 "t" none) ⟨97, 98, 2⟩,
          done) ∧
      (mergedState (initState [97, 98, 97, 98, 99] 300 "t" none)
          ⟨97, 98, 2⟩).encoded_tokens =
        swapPass 97 98 256 [97, 98, 97, 98, 99] ∧
      lookupD (mergedState (initState [97, 98, 97, 98, 99] 300 "t" none)
          ⟨97, 98, 2⟩).decoding_map 256 = some ⟨97, 98, 2⟩ ∧
      lookupE (mergedState (initState [97, 98, 97, 98, 99] 300 "t" none)
          ⟨97, 98, 2⟩).encoding_map (97, 98) = some 256 ∧
      ((∀ x ∈ [97, 98, 97, 98, 99], x ≠ 256) →
        expandMint 256 97 98
          (mergedState (initState [97, 98, 97, 98, 99] 300 "t" none)
            ⟨97, 98, 2⟩).encoded_tokens = [97, 98, 97, 98, 99]) ∧
      (∀ a t : Nat, swapPass a a t [a, a, a] = [t, a]) :=
  c5_swap_step (initState [97, 98, 97, 98, 99] 300 "t" none) ⟨97, 98, 2⟩
    rfl rfl (by decide)

/-- Claim C6: `swap_top` reports DONE exactly when the most frequent pair's
count is 1 or when, after the merge step, `max(stream) + 1` equals the target
vocabulary size; when neither holds, `train` continues with a merge step
performed (the stream was rewritten by the greedy pass). -/
theorem c6_stop_condition (st st' : TState) (done : Bool) (tp : TokenPair)
    (htc : st.tcounts = count st.encoded_tokens)
    (htop : get_most_common st = some tp)
    (hrun : swap_top st = .ok (st', done)) :
    (done = true ↔ (tp.frequency = 1 ∨
      ∃ mx, listMax st'.encoded_tokens = some mx ∧
        mx + 1 = st.encoding_vocab_size)) ∧
    (done = false → ∀ f, trainLoop (f + 1) st = trainLoop f st') ∧
    (done = false → st'.encoded_tokens =
      swapPass tp.first_token tp.second_token st.mint_token st.encoded_tokens) := by
  obtain ⟨tp₂, htop₂, hcase⟩ := swap_top_cases st st' done hrun
  rw [htop] at htop₂
  rw [Option.some.injEq] at htop₂
  subst htop₂
  rcases hcase with ⟨hf, rfl, rfl⟩ | ⟨hf, rfl, mx, hmx, hdone⟩
  · refine ⟨⟨fun _ => Or.inl hf, fun _ => rfl⟩, ?_, ?_⟩
    · intro hfalse
      simp at hfalse
    · intro hfalse
      simp at hfalse
  · refine ⟨⟨?_, ?_⟩, ?_, ?_⟩
    · intro hd
      exact Or.inr ⟨mx, hmx, of_decide_eq_true (hdone.symm.trans hd)⟩
    · intro hP
      rcases hP with hP | ⟨mx', hmx', hP⟩
      · exact absurd hP hf
      · rw [hmx] at hmx'
        rw [Option.some.injEq] at hmx'
        subst hmx'
        rw [hdone]
        exact decide_eq_true hP
    · intro hfalse f
      rw [hfalse] at hrun
      simp only [trainLoop]
      rw [hrun]
    · intro _
      exact mergedState_tokens st tp

theorem c6_stop_condition_witness :
    (true = true ↔ ((⟨97, 98, 2⟩ : TokenPair).frequency = 1 ∨
      ∃ mx, listMax (mergedState (initState [97, 98, 97, 98, 99] 257 "t" none)
          ⟨97, 98, 2⟩).encoded_tokens = some mx ∧ mx + 1 = 257)) ∧
    (true = false → ∀ f,
      trainLoop (f + 1) (initState [97, 98, 97, 98, 99] 257 "t" none) =
        trainLoop f (mergedState (initState [97, 98, 97, 98, 99] 257 "t" none)
          ⟨97, 98, 2⟩)) ∧
    (true = false →
      (mergedState (initState [97, 98, 97, 98, 99] 257 "t" none)
          ⟨97, 98, 2⟩).encoded_tokens =
        swapPass 97 98 256 [97, 98, 97, 98, 99]) :=
  c6_stop_condition (initState [97, 98, 97, 98, 99] 257 "t" none)
    (mergedState (initState [97, 98, 97, 98, 99] 257 "t" none) ⟨97, 98, 2⟩)
    true ⟨97, 98, 2⟩ rfl rfl rfl

/-- Claim C7: for every symbol sequence and every `decoding_map` produced by
a completed training run (whose entries, by the training invariant, map each
minted symbol to a pair of strictly smaller symbols), the decode fixed-point
loop terminates; it stops at the first pass that performs zero expansions
(the result is a fixed point of `decodePass`), and the result does not depend
on the fuel bound. -/
theorem c7_decode_terminates (toks : List Nat) (v : Nat) (n : String)
    (p : Option String) (fuel : Nat) (st' : TState)
    (htoks : ∀ x ∈ toks, x < 256)
    (hrun : trainLoop fuel (initState toks v n p) = .ok st')
    (ts : List Nat) :
    ∃ f r, decodeLoop st'.decoding_map f ts = some r ∧
      decodePass st'.decoding_map r = (r, true) ∧
      (∀ f₂ r₂, decodeLoop st'.decoding_map f₂ ts = some r₂ → r₂ = r) := by
  have hinv := trainLoop_inv fuel _ st' (initState_inv toks v n p htoks) hrun
  obtain ⟨r, hr⟩ :=
    decodeLoop_isSome st'.decoding_map hinv.grounded (weight3 ts + 1) ts (by omega)
  refine ⟨weight3 ts + 1, r, hr, decodeLoop_fix _ _ _ _ hr, ?_⟩
  intro f₂ r₂ h₂
  exact (decodeLoop_unique st'.decoding_map _ ts r hr f₂ r₂ h₂).symm

theorem c7_decode_terminates_witness :
    ∃ f r, decodeLoop [(256, ⟨97, 97, 3⟩)] f [256, 97] = some r ∧
      decodePass [(256, ⟨97, 97, 3⟩)] r = (r, true) ∧
      (∀ f₂ r₂, decodeLoop [(256, ⟨97, 97, 3⟩)] f₂ [256, 97] = some r₂ → r₂ = r) :=
  c7_decode_terminates [97, 97, 97, 97] 300 "t" none 5
    ⟨"t", none, 300, [97, 97, 97, 97], [256, 256], 257,
      [⟨256, 256, 1⟩], [(256, ⟨97, 97, 3⟩)], [((97, 97), 256)]⟩
    (by decide) rfl [256, 97]

/-- Claim C8 counterexample: training `"aaaa"` with target vocabulary size
256 produces `decode_map = {256: (97, 97)}`, so
`max(decode_map.keys() ∪ {255}) + 1 = 257`, which exceeds the configured
target vocabulary size 256. -/
theorem c8_counterexample :
    (trainLoop 10 (initState [97, 97, 97, 97] 256 "t" none)).map
        (fun s => listMax (255 :: keysD s.decoding_map)) = .ok (some 256) ∧
    ¬(256 + 1 ≤ 256) := by
  exact ⟨rfl, by decide⟩

/-- Claim C8 (amended): for every training run whose configured target
vocabulary size is at least 257 (i.e. strictly above the raw-byte alphabet),
`max(decode_map.keys() ∪ {255}) + 1` never exceeds the configured target
vocabulary size.  (For targets ≤ 256 the bound can be exceeded, see the
counterexample.) -/
theorem c8_amended (toks : List Nat) (v : Nat) (n : String) (p : Option String)
    (fuel : Nat) (st' : TState)
    (hv : 257 ≤ v)
    (htoks : ∀ x ∈ toks, x < 256)
    (hrun : trainLoop fuel (initState toks v n p) = .ok st') :
    ∃ mx, listMax (255 :: keysD st'.decoding_map) = some mx ∧ mx + 1 ≤ v := by
  have hkeys := trainLoop_keys_lt fuel _ st' (initState_inv toks v n p htoks)
    (by show (256 : Nat) < v; omega) hrun
  have hkeys' : ∀ t tp, lookupD st'.decoding_map t = some tp → t < v := hkeys
  obtain ⟨mx, hmx⟩ := listMax_isSome (255 :: keysD st'.decoding_map)
    (List.cons_ne_nil _ _)
  refine ⟨mx, hmx, ?_⟩
  have hmem := listMax_mem _ mx hmx
  rcases List.mem_cons.mp hmem with rfl | hmem
  · omega
  · obtain ⟨tp, htp⟩ := mem_keysD _ mx hmem
    have := hkeys' mx tp htp
    omega

theorem c8_amended_witness :
    ∃ mx, listMax (255 :: keysD [(256, ⟨97, 97, 3⟩)]) = some mx ∧ mx + 1 ≤ 257 :=
  c8_amended [97, 97, 97, 97] 257 "t" none 5
    ⟨"t", none, 257, [97, 97, 97, 97], [256, 256], 257,
      [⟨256, 256, 1⟩], [(256, ⟨97, 97, 3⟩)], [((97, 97), 256)]⟩
    (by decide) (by decide) rfl

/-- Claim C9: training is deterministic: two completed training runs on the
identical token input with the identical target vocabulary size produce
identical MergeTables (identical `encoding_map` and `decoding_map`) and the
identical final stream, regardless of fuel bounds and of the
training-irrelevant metadata (`name`, `path_prefix`). -/
theorem c9_determinism (toks : List Nat) (v : Nat) (n₁ n₂ : String)
    (p₁ p₂ : Option String) (f₁ f₂ : Nat) (r₁ r₂ : TState)
    (h₁ : trainLoop f₁ (initState toks v n₁ p₁) = .ok r₁)
    (h₂ : trainLoop f₂ (initState toks v n₂ p₂) = .ok r₂) :
    r₁.encoding_map = r₂.encoding_map ∧ r₁.decoding_map = r₂.decoding_map ∧
      r₁.encoded_tokens = r₂.encoded_tokens := by
  have hinit : initState toks v n₂ p₂ = rn n₂ p₂ (initState toks v n₁ p₁) := rfl
  rw [hinit, trainLoop_rn] at h₂
  cases hrun : trainLoop f₂ (initState toks v n₁ p₁) with
  | error e =>
    rw [hrun] at h₂
    cases h₂
  | ok r₂' =>
    rw [hrun] at h₂
    simp only [Except.map, Except.ok.injEq] at h₂
    have huniq : r₁ = r₂' := trainLoop_unique f₁ _ r₁ h₁ f₂ r₂' hrun
    subst huniq
    rw [← h₂]
    exact ⟨rfl, rfl, rfl⟩

theorem c9_determinism_witness :
    (⟨"a", none, 300, [97, 97, 97], [256, 97], 257, [⟨256, 97, 1⟩],
        [(256, ⟨97, 97, 2⟩)], [((97, 97), 256)]⟩ : TState).encoding_map =
      (⟨"b", some (String.mk ['d']), 300, [97, 97, 97], [256, 97], 257,
        [⟨256, 97, 1⟩], [(256, ⟨97, 97, 2⟩)], [((97, 97), 256)]⟩ : TState).encoding_map ∧
    (⟨"a", none, 300, [97, 97, 97], [256, 97], 257, [⟨256, 97, 1⟩],
        [(256, ⟨97, 97, 2⟩)], [((97, 97), 256)]⟩ : TState).decoding_map =
      (⟨"b", some (String.mk ['d']), 300, [97, 97, 97], [256, 97], 257,
        [⟨256, 97, 1⟩], [(256, ⟨97, 97, 2⟩)], [((97, 97), 256)]⟩ : TState).decoding_map ∧
    (⟨"a", none, 300, [97, 97, 97], [256, 97], 257, [⟨256, 97, 1⟩],
        [(256, ⟨97, 97, 2⟩)], [((97, 97), 256)]⟩ : TState).encoded_tokens =
      (⟨"b", some (String.mk ['d']), 300, [97, 97, 97], [256, 97], 257,
        [⟨256, 97, 1⟩], [(256, ⟨97, 97, 2⟩)], [((97, 97), 256)]⟩ : TState).encoded_tokens :=
  c9_determinism [97, 97, 97] 300 "a" "b" none (some (String.mk ['d'])) 5 5
    ⟨"a", none, 300, [97, 97, 97], [256, 97], 257, [⟨256, 97, 1⟩],
      [(256, ⟨97, 97, 2⟩)], [((97, 97), 256)]⟩
    ⟨"b", some (String.mk ['d']), 300, [97, 97, 97], [256, 97], 257,
      [⟨256, 97, 1⟩], [(256, ⟨97, 97, 2⟩)], [((97, 97), 256)]⟩
    rfl rfl

/-- Claim C10 counterexample: the claim fails for an `encoding_map` that maps
a pair to the symbol 0: Python's truthiness test `if encoded_token:` treats
the mapped value 0 like an absent key, so encode leaves the keyed pair
`(0, 1)` adjacent in its output. -/
theorem c10_counterexample :
    encodeLoop [((0, 1), 0)] 5 [0, 1] = some [0, 1] ∧
    lookupE [((0, 1), 0)] (0, 1) = some 0 ∧
    (0, 1) ∈ adjPairs [0, 1] := by
  exact ⟨rfl, rfl, by decide⟩

/-- Claim C10 (amended): for every `encoding_map` whose values are all
nonzero (Python-truthy; in particular every trained map, whose values are
minted ids ≥ 256), the output of a completed encode is a fixed point of
merging: no adjacent pair of the output is a key of the map. -/
theorem c10_amended (e : List ((Nat × Nat) × Nat))
    (hnz : ∀ p t, lookupE e p = some t → t ≠ 0)
    (fuel : Nat) (ts out : List Nat)
    (h : encodeLoop e fuel ts = some out) :
    ∀ p ∈ adjPairs out, lookupE e p = none := by
  have hfix := encodeLoop_fix e fuel ts out h
  intro p hp
  apply encodePass_true_nokey e hnz out _ p hp
  rw [hfix]

theorem c10_amended_witness :
    lookupE [((97, 98), 256)] (256, 97) = none :=
  c10_amended [((97, 98), 256)]
    (fun p t h => by
      rw [lookupE_cons] at h
      by_cases hc : ((97, 98) : Nat × Nat) = p
      · rw [if_pos hc] at h
        rw [Option.some.injEq] at h
        omega
      · rw [if_neg hc] at h
        cases h)
    5 [97, 98, 97] [256, 97] rfl (256, 97) (by decide)

end BPE
